import Mathlib

/-!
Verification of the content pipeline and retrieval engine of the
`mcp-dm-claude` repository (PDF parser / chunker, embedding service,
Redis-backed store and search, MCP search handler) against its
natural-language specification.

Python strings are modelled as `List Char` (`PyStr`); Python floats are
modelled as exact rationals `ℚ` (the standard idealisation: rounding is
ignored).  Values of the form `d / sqrt p` produced by cosine similarity are
represented exactly by the pair `(d, p) : SimVal` together with the
order-preserving rational key `sign d * d^2 / p`, so all comparisons the code
performs on similarity scores are decidable.  External collaborators (the
sentence-transformer model, the Redis server) are passed in as explicit
state/function arguments.
-/

/-- Python `str` modelled as its list of characters. -/
abbrev PyStr := List Char

/-- Python `str.lower()` (ASCII case folding suffices for the inputs the
code compares). -/
def pyLower (s : PyStr) : PyStr := s.map Char.toLower

/-- Python `str.strip()`: drop leading and trailing whitespace. -/
def pyStrip (s : PyStr) : PyStr :=
  (((s.dropWhile Char.isWhitespace).reverse).dropWhile Char.isWhitespace).reverse

/-- Python truthiness test `not text or not text.strip()`. -/
def isBlankText (s : PyStr) : Bool := s = [] ∨ pyStrip s = []

/-- Python lexicographic `<` on strings (by code point). -/
def pyStrLt : PyStr → PyStr → Bool
  | [], [] => false
  | [], _ :: _ => true
  | _ :: _, [] => false
  | a :: as, b :: bs => if a.val < b.val then true else if b.val < a.val then false else pyStrLt as bs

/-- Python `sep.join(pieces)` for a list of strings. -/
def joinWith (sep : PyStr) : List PyStr → PyStr
  | [] => []
  | [p] => p
  | p :: q :: rest => p ++ sep ++ joinWith sep (q :: rest)

/-- Python `content.split('\n\n')` (left-to-right, non-overlapping
separator matches, empty pieces kept).  This is the paragraph split used by
`PDFParser._split_section_into_chunks`. -/
def splitParagraphs : PyStr → List PyStr
  | [] => [[]]
  | '\n' :: '\n' :: rest => [] :: splitParagraphs rest
  | c :: rest =>
    match splitParagraphs rest with
    | [] => [[c]]
    | p :: ps => (c :: p) :: ps

/-- Whether a string contains two consecutive newlines (the `'\n\n'`
separator); the pieces of `splitParagraphs` never do. -/
def hasDoubleNL : PyStr → Bool
  | [] => false
  | '\n' :: '\n' :: _ => true
  | _ :: rest => hasDoubleNL rest

/-- Loop state of `_split_section_into_chunks`: finished chunks, the running
list of paragraphs of the current chunk, and `current_size` (the running sum
of paragraph lengths, which ignores the `'\n\n'` separators that
`'\n\n'.join` later re-inserts). -/
structure ChunkAcc where
  chunks : List PyStr
  current : List PyStr
  size : ℕ
deriving DecidableEq

/-- One iteration of the paragraph loop in `_split_section_into_chunks`:
`if current_size + para_size > max_chunk_size and current_chunk: flush`. -/
def chunkStep (maxChunkSize : ℕ) (st : ChunkAcc) (p : PyStr) : ChunkAcc :=
  if st.size + p.length > maxChunkSize ∧ st.current ≠ [] then
    ⟨st.chunks ++ [joinWith ['\n', '\n'] st.current], [p], p.length⟩
  else
    ⟨st.chunks, st.current ++ [p], st.size + p.length⟩

/-- Model of `PDFParser._split_section_into_chunks` (pdf_parser.py lines
291-320): return `[content]` when it already fits, otherwise accumulate
paragraphs greedily and join each finished group with `'\n\n'`. -/
def split_section_into_chunks (maxChunkSize : ℕ) (content : PyStr) : List PyStr :=
  if content.length ≤ maxChunkSize then [content]
  else
    let paragraphs := splitParagraphs content
    let st := paragraphs.foldl (chunkStep maxChunkSize) ⟨[], [], 0⟩
    if st.current ≠ [] then st.chunks ++ [joinWith ['\n', '\n'] st.current] else st.chunks

/-- Python `any(word in title_lower for word in words)`. -/
def containsAnyWord (hay : PyStr) (words : List PyStr) : Bool :=
  words.any (fun w => decide (w <:+: hay))

/-- Model of `PDFParser._determine_content_type` (pdf_parser.py lines
322-335). -/
def determine_content_type (title : PyStr) : PyStr :=
  let tl := pyLower title
  if containsAnyWord tl ["spell".toList, "magic".toList, "cantrip".toList] then "spell".toList
  else if containsAnyWord tl ["monster".toList, "creature".toList, "bestiary".toList] then
    "monster".toList
  else if containsAnyWord tl ["item".toList, "equipment".toList, "weapon".toList,
      "armor".toList] then "item".toList
  else if containsAnyWord tl ["rule".toList, "combat".toList, "action".toList,
      "mechanic".toList] then "rule".toList
  else "rule".toList

/-- The `Section` dataclass of data_models.py (the unused `subsections`
default is omitted). -/
structure Section where
  title : PyStr
  content : PyStr
  page_start : Int
  page_end : Int
  level : Int
  parent_sections : List PyStr
deriving DecidableEq

/-- Decimal digits of a natural number, as Python `str(i)` produces for the
non-negative chunk index. -/
def natToStr (n : ℕ) : PyStr := Nat.toDigits 10 n

/-- Python `str(i)` for an int (chunk page ranges may in principle carry
negative ints through the model; Python prepends a minus sign). -/
def intToStr (i : Int) : PyStr :=
  if i < 0 then '-' :: natToStr i.natAbs else natToStr i.natAbs

/-- The `ContentChunk` dataclass of data_models.py.  The free-form
`metadata` dict built by `create_chunks` is modelled by its three entries
(`section_level`, `page_range`, `chunk_index`); the optional `tables` field
(default `None`, never consulted by chunking or search) is omitted. -/
structure ContentChunk where
  id : PyStr
  rulebook : PyStr
  system : PyStr
  content_type : PyStr
  title : PyStr
  content : PyStr
  page_number : Int
  section_path : List PyStr
  embedding : List ℚ
  meta_section_level : Int
  meta_page_range : PyStr
  meta_chunk_index : ℕ
deriving DecidableEq

/-- Python `s.replace(" ", "_")` (single-character pattern, hence a map). -/
def replaceSpaces (s : PyStr) : PyStr := s.map (fun c => if c = ' ' then '_' else c)

/-- Model of `PDFParser.create_chunks` (pdf_parser.py lines 256-289): split
every section, then build one `ContentChunk` per piece, with
`chunk_id = f"{rulebook_name}_{section.title}_{i}".replace(" ", "_")`. -/
def create_chunks (sections : List Section) (rulebook_name system : PyStr) :
    List ContentChunk :=
  sections.flatMap fun sec =>
    (split_section_into_chunks 1500 sec.content).enum.map fun ic =>
      { id := replaceSpaces (rulebook_name ++ '_' :: sec.title ++ '_' :: natToStr ic.1)
        rulebook := rulebook_name
        system := system
        content_type := determine_content_type sec.title
        title := sec.title
        content := ic.2
        page_number := sec.page_start
        section_path := sec.parent_sections ++ [sec.title]
        embedding := []
        meta_section_level := sec.level
        meta_page_range := intToStr sec.page_start ++ '-' :: intToStr sec.page_end
        meta_chunk_index := ic.1 }

/-- The deterministic chunk-id formula asserted by the spec: a function of
document name, section title and piece index, with spaces normalised to
underscores. -/
def chunk_id_of (rulebook_name title : PyStr) (i : ℕ) : PyStr :=
  replaceSpaces (rulebook_name ++ '_' :: title ++ '_' :: natToStr i)

/-- One table-of-contents entry as built by `PDFParser._extract_toc`:
title, target page and nesting level.  The degenerate `page = None` case
(spec §4.2) would make the Python page arithmetic raise, so entries are
modelled with resolved integer pages. -/
structure TocEntry where
  title : PyStr
  page : Int
  level : Int
deriving DecidableEq

/-- One page record of the extractor's page-indexed intermediate form
(`page_number`, `text`; extracted tables are irrelevant to sectioning). -/
structure PageData where
  page_number : Int
  text : PyStr
deriving DecidableEq

/-- Model of `PDFParser._extract_section_content` (pdf_parser.py lines
242-254): join with `'\n'` the non-empty texts of the pages whose number
lies in `[start_page, end_page]`. -/
def extract_section_content (pages : List PageData) (start_page end_page : Int) : PyStr :=
  joinWith ['\n']
    ((pages.filter fun p =>
      start_page ≤ p.page_number ∧ p.page_number ≤ end_page ∧ p.text ≠ []).map PageData.text)

/-- End page computed by `identify_sections` for outline entry `i`
(pdf_parser.py lines 151-156): the document's last page, overridden by
`toc[i+1].page - 1` only when the immediately following entry exists and
has level `≤` the current one. -/
def tocEndPage (toc : List TocEntry) (i : ℕ) (sectionLevel : Int) (totalPages : Int) : Int :=
  match toc.get? (i + 1) with
  | some nxt => if nxt.level ≤ sectionLevel then nxt.page - 1 else totalPages
  | none => totalPages

/-- Model of the outline-driven branch of `PDFParser.identify_sections`
(pdf_parser.py lines 135-180); the pattern fallback for documents without
an outline (lines 182-240) is a separate algorithm not touched by the
claims.  A section is emitted only when its extracted content is
non-empty (`if section_content:`). -/
def identify_sections_toc (toc : List TocEntry) (pages : List PageData)
    (totalPages : Int) : List Section :=
  toc.enum.filterMap fun ie =>
    let entry := ie.2
    let endPage := tocEndPage toc ie.1 entry.level totalPages
    let content := extract_section_content pages entry.page endPage
    if content = [] then none
    else some
      { title := entry.title
        content := content
        page_start := entry.page
        page_end := endPage
        level := entry.level
        parent_sections := ((toc.take ie.1).filter fun e => e.level < entry.level).map
          TocEntry.title }

/-- Modelled from the spec (claim C3, refinement side): "the section's end
page is the start page of the next outline entry whose level ≤ L, minus
one, or the document's last page if no such entry exists" — i.e. scan all
later entries for the first one of level at most L. -/
def spec_section_end_page (toc : List TocEntry) (i : ℕ) (totalPages : Int) : Int :=
  match toc.get? i with
  | none => totalPages
  | some e =>
    match (toc.drop (i + 1)).find? (fun e2 => e2.level ≤ e.level) with
    | some nxt => nxt.page - 1
    | none => totalPages

/-- Exact representation of a similarity score: `(d, p)` stands for the real
number `d / sqrt p` (with `p > 0` at every construction site).  Cosine
similarity `dot / (sqrt s1 * sqrt s2)` is `(dot, s1 * s2)`. -/
abbrev SimVal := ℚ × ℚ

/-- Order-preserving rational key of a `SimVal`: for `p > 0` the map
`d / sqrt p ↦ sign d * d^2 / p` is strictly monotone, so comparisons of
scores are exactly comparisons of keys. -/
def simKey (s : SimVal) : ℚ :=
  if 0 ≤ s.1 then s.1 ^ 2 / s.2 else -(s.1 ^ 2 / s.2)

/-- Float comparison `x < y` on two similarity scores. -/
def simLtB (x y : SimVal) : Bool := decide (simKey x < simKey y)

/-- Float comparison `similarity >= similarity_threshold` used at
redis_manager.py line 153; the rational threshold `t` is the score
`t / sqrt 1`. -/
def simGeThreshold (s : SimVal) (t : ℚ) : Bool := decide (simKey (t, 1) ≤ simKey s)

/-- Result of a cosine-similarity computation, keeping the branch
structure: `zero` for every `return 0.0` path, `ratio dot s1 s2` for the
final `return dot_product / (magnitude1 * magnitude2)` with the exact sums
it divides (value `dot / (sqrt s1 * sqrt s2)`). -/
inductive SimResult where
  | zero : SimResult
  | ratio (dot s1 s2 : ℚ) : SimResult
deriving DecidableEq

/-- The score a `SimResult` evaluates to, as an exact `SimVal`. -/
def SimResult.val : SimResult → SimVal
  | .zero => (0, 1)
  | .ratio d s1 s2 => (d, s1 * s2)

/-- Python `sum(a * b for a, b in zip(vec1, vec2))`. -/
def dotList (v1 v2 : List ℚ) : ℚ :=
  (v1.zip v2).foldl (fun acc p => acc + p.1 * p.2) 0

/-- Python `sum(a * a for a in vec)`, the squared magnitude. -/
def sumSq (v : List ℚ) : ℚ := v.foldl (fun acc a => acc + a * a) 0

/-- Model of `RedisDataManager._cosine_similarity` (redis_manager.py lines
200-215): `0.0` for empty or length-mismatched inputs and for zero
magnitudes (`magnitude == 0` iff the squared magnitude is `0`, since
`sqrt` of a positive number is positive), otherwise the division. -/
def rm_cosine_similarity (vec1 vec2 : List ℚ) : SimResult :=
  if vec1 = [] ∨ vec2 = [] ∨ vec1.length ≠ vec2.length then .zero
  else
    let dot := dotList vec1 vec2
    let s1 := sumSq vec1
    let s2 := sumSq vec2
    if s1 = 0 ∨ s2 = 0 then .zero else .ratio dot s1 s2

/-- Model of `EmbeddingService.similarity` (embedding_service.py lines
136-157): `0.0` for empty inputs; a length mismatch makes `np.dot` raise
`ValueError`, which the `except` turns into `0.0`; zero norms give `0.0`;
otherwise the division. -/
def es_similarity (embedding1 embedding2 : List ℚ) : SimResult :=
  if embedding1 = [] ∨ embedding2 = [] then .zero
  else if embedding1.length ≠ embedding2.length then .zero
  else
    let dot := dotList embedding1 embedding2
    let s1 := sumSq embedding1
    let s2 := sumSq embedding2
    if s1 = 0 ∨ s2 = 0 then .zero else .ratio dot s1 s2

/-- Model of `EmbeddingService.generate_embedding` (embedding_service.py
lines 54-77).  The md5-keyed cache is modelled as keyed by the text itself
(the hash is used only as an injective key); the external model call is a
function that may fail (`except` returns `[]`); cache population is a side
effect irrelevant to the claims and is not threaded. -/
def generate_embedding (cache : PyStr → Option (List ℚ)) (model : PyStr → Option (List ℚ))
    (text : PyStr) : List ℚ :=
  if isBlankText text then []
  else
    match cache text with
    | some v => v
    | none =>
      match model (pyStrip text) with
      | some e => e
      | none => []

/-- Structural helper for `toBatches`: the fuel starts at the list length
and strictly dominates the number of batching steps. -/
def toBatchesFuel (n : ℕ) : ℕ → List α → List (List α)
  | _, [] => []
  | 0, _ :: _ => []
  | fuel + 1, a :: l =>
    if n = 0 then [] else (a :: l).take n :: toBatchesFuel n fuel ((a :: l).drop n)

/-- Python `range(0, len(l), n)` slicing of `batch_embed`: consecutive
batches of `n` elements (all of `l`, in order).  `n = 0` would make the
Python `range` raise and never occurs (default 32). -/
def toBatches (n : ℕ) (l : List α) : List (List α) := toBatchesFuel n l.length l

/-- The batch loop of `batch_embed` (embedding_service.py lines 103-132):
process batches of (stripped text, original index) pairs in order; a model
failure raises out of the whole loop (the `try` wraps every remaining
batch), leaving later placeholders untouched. -/
def processBatches (encode : List PyStr → Option (List (List ℚ))) :
    List (List (PyStr × ℕ)) → List (Option (List ℚ)) → List (Option (List ℚ))
  | [], es => es
  | b :: bs, es =>
    match encode (b.map Prod.fst) with
    | none => es
    | some vs =>
      processBatches encode bs
        ((b.zip vs).foldl (fun acc piv => acc.set piv.1.2 piv.2) es)

/-- Model of `EmbeddingService.batch_embed` (embedding_service.py lines
79-134).  Pass 1 resolves blank texts to `[]` and cache hits to their
vectors, leaving `None` placeholders; the uncached (stripped text, index)
pairs are processed in batches; finally remaining placeholders become
`[]`. -/
def batch_embed (cache : PyStr → Option (List ℚ))
    (encode : List PyStr → Option (List (List ℚ))) (batchSize : ℕ)
    (texts : List PyStr) : List (List ℚ) :=
  let embeddings0 := texts.map fun t =>
    if isBlankText t then some [] else cache t
  let uncached := texts.enum.filterMap fun it =>
    if isBlankText it.2 ∨ (cache it.2).isSome then none else some (pyStrip it.2, it.1)
  let processed := processBatches encode (toBatches batchSize uncached) embeddings0
  processed.map fun o => o.getD []

/-- The `(uncached_texts, uncached_indices)` pair lists of `batch_embed`
(embedding_service.py lines 97-100), as (stripped text, original index)
pairs in input order. -/
def uncachedTexts (cache : PyStr → Option (List ℚ)) (texts : List PyStr) :
    List (PyStr × ℕ) :=
  texts.enum.filterMap fun it =>
    if isBlankText it.2 ∨ (cache it.2).isSome then none else some (pyStrip it.2, it.1)

/-- Search state read by `RedisDataManager`: the `chunk:*` keys in scan
order, the parsed `data` field of each chunk hash, and the three secondary
index sets (`rulebook:<v>`, `system:<v>`, `content_type:<v>`). -/
structure StoreState where
  chunkKeys : List PyStr
  data : PyStr → Option ContentChunk
  rulebookIdx : PyStr → List PyStr
  systemIdx : PyStr → List PyStr
  contentTypeIdx : PyStr → List PyStr

/-- The recognised filter dimensions of `_get_filtered_chunks`; a missing
key is `none`.  (Unrecognised dict keys are ignored by the code and are not
modelled.) -/
structure SearchFilters where
  rulebook : Option PyStr
  system : Option PyStr
  content_type : Option PyStr
deriving DecidableEq

/-- Model of `RedisDataManager._get_filtered_chunks` (redis_manager.py
lines 177-198).  `None`/empty filters return the scan list directly; with
filters, `set(scan_iter)` is modelled by `dedup` and each supplied
dimension's index set is intersected in (`result_keys &= filtered_keys`
becomes a membership filter; Python's unspecified set-iteration order is
modelled by first-occurrence order, and every claim about this branch
concerns the resulting set). -/
def get_filtered_chunks (st : StoreState) (filters : Option SearchFilters) : List PyStr :=
  match filters with
  | none => st.chunkKeys
  | some f =>
    let r0 := st.chunkKeys.dedup
    let r1 := match f.rulebook with
      | some v => r0.filter (fun k => k ∈ st.rulebookIdx v)
      | none => r0
    let r2 := match f.system with
      | some v => r1.filter (fun k => k ∈ st.systemIdx v)
      | none => r1
    let r3 := match f.content_type with
      | some v => r2.filter (fun k => k ∈ st.contentTypeIdx v)
      | none => r2
    r3

/-- The `SearchResult` dataclass (data_models.py): chunk, relevance score,
match type; the unused `highlighted_text` default is omitted. -/
structure SearchResult where
  content_chunk : ContentChunk
  relevance_score : SimVal
  match_type : PyStr
deriving DecidableEq

/-- The candidate-scoring loop of `vector_search` (redis_manager.py lines
144-154): for every filtered key whose chunk exists and has a non-empty
stored vector, keep `(key, chunk, similarity)` exactly when
`similarity >= similarity_threshold`. -/
def vector_scored (st : StoreState) (queryEmbedding : List ℚ)
    (filters : Option SearchFilters) (similarityThreshold : ℚ) :
    List (PyStr × ContentChunk × SimVal) :=
  (get_filtered_chunks st filters).filterMap fun key =>
    match st.data key with
    | none => none
    | some chunk =>
      if chunk.embedding = [] then none
      else
        let s := (rm_cosine_similarity queryEmbedding chunk.embedding).val
        if simGeThreshold s similarityThreshold then some (key, chunk, s) else none

/-- Stable insertion of `a` (the earlier element) into `l`: `a` passes over
exactly the elements with strictly greater key, so equal-key elements keep
their original relative order. -/
def insertDescBy (lt : α → α → Bool) (a : α) : List α → List α
  | [] => [a]
  | b :: l => if lt a b then b :: insertDescBy lt a l else a :: b :: l

/-- Stable descending sort, the observable contract of Python's
`list.sort(key=..., reverse=True)` (which is specified as a stable sort;
any stable descending sort is extensionally the same function). -/
def sortDescBy (lt : α → α → Bool) : List α → List α
  | [] => []
  | a :: l => insertDescBy lt a (sortDescBy lt l)

/-- Model of `RedisDataManager.vector_search` (redis_manager.py lines
129-175): score the filtered candidates, sort by similarity descending
(stable), truncate to `max_results`, and tag the results `semantic`. -/
def vector_search (st : StoreState) (queryEmbedding : List ℚ)
    (filters : Option SearchFilters) (maxResults : ℕ) (similarityThreshold : ℚ) :
    List SearchResult :=
  if get_filtered_chunks st filters = [] then []
  else
    let similarities := vector_scored st queryEmbedding filters similarityThreshold
    let sorted := sortDescBy (fun x y => simLtB x.2.2 y.2.2) similarities
    (sorted.take maxResults).map fun kcs =>
      { content_chunk := kcs.2.1
        relevance_score := kcs.2.2
        match_type := "semantic".toList }

/-- Model of `RedisDataManager.keyword_search` (redis_manager.py lines
377-415): case-insensitive substring scoring (`+1.0` for a title hit,
`+0.5` for a content hit), keep positive scores, sort descending by score
(stable), tag `keyword`.  No truncation happens here; the caller slices. -/
def keyword_search (st : StoreState) (query : PyStr) (filters : Option SearchFilters) :
    List SearchResult :=
  let queryLower := pyLower query
  let results := (get_filtered_chunks st filters).filterMap fun key =>
    match st.data key with
    | none => none
    | some chunk =>
      let score : ℚ :=
        (if queryLower <:+: pyLower chunk.title then 1 else 0) +
          (if queryLower <:+: pyLower chunk.content then 1 / 2 else 0)
      if 0 < score then
        some { content_chunk := chunk
               relevance_score := (score, 1)
               match_type := "keyword".toList }
      else none
  sortDescBy (fun x y => simLtB x.relevance_score y.relevance_score) results

/-- The search-relevant part of the server configuration
(utils/config.py `SearchConfig`). -/
structure SearchConfig where
  default_max_results : ℕ
  similarity_threshold : ℚ
  enable_keyword_fallback : Bool
deriving DecidableEq

/-- Outcome of the retrieval core of `_handle_search_rulebook`, keeping
whether `redis_manager.vector_search` was actually invoked. -/
structure SearchOutcome where
  vectorAttempted : Bool
  vectorResults : List SearchResult
  keywordResults : List SearchResult
  allResults : List SearchResult
deriving DecidableEq

/-- Filter building of `_handle_search_rulebook` (mcp_server.py lines
197-202): `rulebook` is added only when truthy, `content_type` only when
not `any`; an empty dict is passed as no filters. -/
def search_filters_of (rulebook : Option PyStr) (contentType : PyStr) :
    Option SearchFilters :=
  let rulebookFilter : Option PyStr :=
    match rulebook with
    | some v => if v = [] then none else some v
    | none => none
  let contentTypeFilter : Option PyStr :=
    if contentType = "any".toList then none else some contentType
  if rulebookFilter = none ∧ contentTypeFilter = none then none
  else some
    { rulebook := rulebookFilter
      system := none
      content_type := contentTypeFilter }

/-- The `vector_results` stage (mcp_server.py lines 207-215): vector search
runs only when the query embedding is non-empty. -/
def search_vector_results (st : StoreState) (cache : PyStr → Option (List ℚ))
    (model : PyStr → Option (List ℚ)) (cfg : SearchConfig) (query : PyStr)
    (rulebook : Option PyStr) (contentType : PyStr) (maxResults : ℕ) : List SearchResult :=
  if generate_embedding cache model query ≠ [] then
    vector_search st (generate_embedding cache model query)
      (search_filters_of rulebook contentType) maxResults cfg.similarity_threshold
  else []

/-- The `keyword_results` stage (mcp_server.py lines 217-223): keyword
search runs only when fallback is enabled and `vector_results` is empty;
the caller slices to `max_results`. -/
def search_keyword_results (st : StoreState) (cache : PyStr → Option (List ℚ))
    (model : PyStr → Option (List ℚ)) (cfg : SearchConfig) (query : PyStr)
    (rulebook : Option PyStr) (contentType : PyStr) (maxResults : ℕ) : List SearchResult :=
  if cfg.enable_keyword_fallback ∧
      search_vector_results st cache model cfg query rulebook contentType maxResults = [] then
    (keyword_search st query (search_filters_of rulebook contentType)).take maxResults
  else []

/-- Model of the retrieval core of `MCPServer._handle_search_rulebook`
(mcp_server.py lines 184-226), assembled from the staged definitions above.
The leading `if not query` error return and the response formatting below
line 226 do not affect which searches run on a non-empty query. -/
def search_rulebook_core (st : StoreState) (cache : PyStr → Option (List ℚ))
    (model : PyStr → Option (List ℚ)) (cfg : SearchConfig) (query : PyStr)
    (rulebook : Option PyStr) (contentType : PyStr) (maxResults : ℕ) : SearchOutcome :=
  { vectorAttempted := generate_embedding cache model query ≠ []
    vectorResults := search_vector_results st cache model cfg query rulebook contentType
      maxResults
    keywordResults := search_keyword_results st cache model cfg query rulebook contentType
      maxResults
    allResults :=
      search_vector_results st cache model cfg query rulebook contentType maxResults ++
        search_keyword_results st cache model cfg query rulebook contentType maxResults }

/-- The index sets of the dimensions actually supplied in a filter map, in
the fixed dimension order (document/rulebook, system, category). -/
def suppliedIndexSets (st : StoreState) (f : SearchFilters) : List (Finset PyStr) :=
  ([f.rulebook.map fun v => (st.rulebookIdx v).toFinset,
    f.system.map fun v => (st.systemIdx v).toFinset,
    f.content_type.map fun v => (st.contentTypeIdx v).toFinset]).reduceOption

/-- Intersection of a list of sets; an empty list (no supplied dimension)
yields the default (all stored chunk ids). -/
def interAll (dflt : Finset PyStr) : List (Finset PyStr) → Finset PyStr
  | [] => dflt
  | s :: rest => rest.foldl (fun a b => a ∩ b) s

/-- Sample paragraph of 750 characters (no newlines). -/
def paraA : PyStr := List.replicate 750 'a'

/-- Second sample paragraph of 750 characters. -/
def paraB : PyStr := List.replicate 750 'b'

/-- Third, one-character sample paragraph. -/
def paraC : PyStr := List.replicate 1 'c'

/-- Section content of 1505 characters whose three paragraphs measure 750,
750 and 1: the chunker's size accounting (which ignores the re-inserted
`'\n\n'` separators) groups the first two paragraphs into one 1502-character
chunk. -/
def sampleOverflowContent : PyStr :=
  paraA ++ '\n' :: '\n' :: (paraB ++ '\n' :: '\n' :: paraC)

/-- Sample chunk with id `a` and a stored unit vector. -/
def chunkA : ContentChunk :=
  { id := "a".toList
    rulebook := "book".toList
    system := "sys".toList
    content_type := "rule".toList
    title := "Alpha".toList
    content := "alpha text".toList
    page_number := 1
    section_path := ["Alpha".toList]
    embedding := [1]
    meta_section_level := 1
    meta_page_range := "1-1".toList
    meta_chunk_index := 0 }

/-- Sample chunk with id `b` and the same stored vector as `chunkA`. -/
def chunkB : ContentChunk :=
  { chunkA with id := "b".toList, title := "Beta".toList, content := "beta text".toList }

/-- Store whose scan order lists `chunk:b` before `chunk:a`; both stored
vectors equal the query vector `[1]`, so both similarities tie at 1. -/
def tieStore : StoreState :=
  { chunkKeys := ["chunk:b".toList, "chunk:a".toList]
    data := fun k =>
      if k = "chunk:b".toList then some chunkB
      else if k = "chunk:a".toList then some chunkA
      else none
    rulebookIdx := fun _ => []
    systemIdx := fun _ => []
    contentTypeIdx := fun _ => [] }

/-- Chunk whose stored vector `[1, 1, 7, 7]` has cosine similarity exactly
`7/10` with the query vector `[0, 0, 0, 1]`. -/
def boundaryChunk : ContentChunk :=
  { chunkA with id := "q".toList, embedding := [1, 1, 7, 7] }

/-- Store holding only `boundaryChunk`. -/
def boundaryStore : StoreState :=
  { chunkKeys := ["chunk:q".toList]
    data := fun k => if k = "chunk:q".toList then some boundaryChunk else none
    rulebookIdx := fun _ => []
    systemIdx := fun _ => []
    contentTypeIdx := fun _ => [] }

/-- Chunk whose title `a b` contains a space. -/
def titleChunk : ContentChunk :=
  { chunkA with
    id := "t".toList
    title := "a b".toList
    content := "x".toList
    embedding := [1] }

/-- Store holding only `titleChunk`. -/
def titleStore : StoreState :=
  { chunkKeys := ["chunk:t".toList]
    data := fun k => if k = "chunk:t".toList then some titleChunk else none
    rulebookIdx := fun _ => []
    systemIdx := fun _ => []
    contentTypeIdx := fun _ => [] }

/-- The default search configuration of utils/config.py (`max_results 5`,
`similarity_threshold 0.7`, keyword fallback enabled). -/
def defaultSearchConfig : SearchConfig :=
  { default_max_results := 5
    similarity_threshold := 7 / 10
    enable_keyword_fallback := true }

/-- The spec §8 filter-intersection example: chunks A (doc X, sys S1),
B (doc X, sys S2), C (doc Y, sys S1), with the corresponding indexes. -/
def filterStore : StoreState :=
  { chunkKeys := ["chunk:A".toList, "chunk:B".toList, "chunk:C".toList]
    data := fun _ => none
    rulebookIdx := fun v =>
      if v = "X".toList then ["chunk:A".toList, "chunk:B".toList]
      else if v = "Y".toList then ["chunk:C".toList] else []
    systemIdx := fun v =>
      if v = "S1".toList then ["chunk:A".toList, "chunk:C".toList]
      else if v = "S2".toList then ["chunk:B".toList] else []
    contentTypeIdx := fun _ => [] }

/-- Outline with a level-1 child between two level-0 entries: entry `A`
(level 0) is followed immediately by `B` (level 1), and the first later
entry of level ≤ 0 is `C` at page 3. -/
def sampleToc : List TocEntry :=
  [⟨"A".toList, 1, 0⟩, ⟨"B".toList, 2, 1⟩, ⟨"C".toList, 3, 0⟩]

/-- Five pages, each with the non-empty text `t`. -/
def samplePages : List PageData :=
  [⟨1, "t".toList⟩, ⟨2, "t".toList⟩, ⟨3, "t".toList⟩, ⟨4, "t".toList⟩, ⟨5, "t".toList⟩]

/-- Batch encoder that fails (raises) on any batch containing the text
`bad` and embeds every text of any other batch as `[1]`. -/
def encodeFailsOnBad : List PyStr → Option (List (List ℚ)) :=
  fun ts => if "bad".toList ∈ ts then none else some (ts.map fun _ => ([1] : List ℚ))

/-- Cache holding an embedding only for the text `hit`. -/
def cacheHit : PyStr → Option (List ℚ) :=
  fun t => if t = "hit".toList then some [5] else none

/-- A chunk is a non-empty group of paragraphs joined by `'\n\n'`, whose
paragraph lengths sum to at most `m` whenever there are at least two
paragraphs (the loop bounds the sum, not the joined length). -/
def IsParaGroupBounded (m : ℕ) (ch : PyStr) : Prop :=
  ∃ ps, ps ≠ [] ∧ (∀ p ∈ ps, hasDoubleNL p = false) ∧
    ch = joinWith ['\n', '\n'] ps ∧
    (1 < ps.length → (ps.map List.length).sum ≤ m)

/-- Invariant of the paragraph-accumulation loop of
`_split_section_into_chunks`: the accumulated paragraphs are
separator-free pieces. -/
def ChunkInv (m : ℕ) (st : ChunkAcc) : Prop :=
  (∀ ch ∈ st.chunks, IsParaGroupBounded m ch) ∧
    (∀ p ∈ st.current, hasDoubleNL p = false) ∧
    (1 < st.current.length → (st.current.map List.length).sum ≤ m) ∧
    st.size = (st.current.map List.length).sum

lemma splitParagraphs_cons_eq (c : Char) (rest : PyStr)
    (h : ∀ rest1, c = '\n' → rest = '\n' :: rest1 → False) :
    splitParagraphs (c :: rest) =
      match splitParagraphs rest with
      | [] => [[c]]
      | p :: ps => (c :: p) :: ps := by
  rw [splitParagraphs]
  all_goals first
    | rfl
    | exact h

lemma splitParagraphs_nil : splitParagraphs [] = [[]] := by
  rw [splitParagraphs]

lemma splitParagraphs_double_eq (rest : PyStr) :
    splitParagraphs ('\n' :: '\n' :: rest) = [] :: splitParagraphs rest := by
  rw [splitParagraphs]

lemma splitParagraphs_cons_eq2 (c : Char) (rest : PyStr) (q : PyStr) (qs : List PyStr)
    (h : ∀ rest1, c = '\n' → rest = '\n' :: rest1 → False)
    (heq : splitParagraphs rest = q :: qs) :
    splitParagraphs (c :: rest) = (c :: q) :: qs := by
  rw [splitParagraphs_cons_eq c rest h, heq]

lemma hasDoubleNL_double (rest : PyStr) : hasDoubleNL ('\n' :: '\n' :: rest) = true := by
  rw [hasDoubleNL]

lemma hasDoubleNL_cons_eq (c : Char) (rest : PyStr)
    (h : ∀ rest1, c = '\n' → rest = '\n' :: rest1 → False) :
    hasDoubleNL (c :: rest) = hasDoubleNL rest := by
  rw [hasDoubleNL]
  all_goals first
    | rfl
    | exact h

lemma splitParagraphs_ne_nil (s : PyStr) : splitParagraphs s ≠ [] := by
  induction s using splitParagraphs.induct with
  | case1 => simp [splitParagraphs]
  | case2 rest ih => simp [splitParagraphs]
  | case3 c rest h heq ih => rw [splitParagraphs_cons_eq c rest h, heq]; simp
  | case4 c rest h p ps heq ih => rw [splitParagraphs_cons_eq c rest h, heq]; simp

lemma joinWith_cons_cons (sep : PyStr) (c : Char) (p : PyStr) (ps : List PyStr) :
    joinWith sep ((c :: p) :: ps) = c :: joinWith sep (p :: ps) := by
  cases ps <;> simp [joinWith]

lemma joinWith_splitParagraphs (s : PyStr) :
    joinWith ['\n', '\n'] (splitParagraphs s) = s := by
  induction s using splitParagraphs.induct with
  | case1 => simp [splitParagraphs, joinWith]
  | case2 rest ih =>
    rw [splitParagraphs]
    obtain ⟨q, qs, hq⟩ : ∃ q qs, splitParagraphs rest = q :: qs := by
      cases h : splitParagraphs rest with
      | nil => exact absurd h (splitParagraphs_ne_nil rest)
      | cons q qs => exact ⟨q, qs, rfl⟩
    rw [hq] at ih ⊢
    simpa [joinWith] using ih
  | case3 c rest h heq ih =>
    rw [splitParagraphs_cons_eq c rest h, heq]
    rw [heq] at ih
    simp [joinWith] at ih ⊢
    exact ih
  | case4 c rest h p ps heq ih =>
    rw [splitParagraphs_cons_eq c rest h, heq, joinWith_cons_cons]
    rw [heq] at ih
    rw [ih]

lemma length_joinWith (sep : PyStr) (ps : List PyStr) (hne : ps ≠ []) :
    (joinWith sep ps).length = (ps.map List.length).sum + sep.length * (ps.length - 1) := by
  induction ps with
  | nil => exact absurd rfl hne
  | cons p qs ih =>
    cases qs with
    | nil => simp [joinWith]
    | cons q rest =>
      have h2 := ih (by simp)
      simp only [joinWith, List.length_append, List.map_cons, List.sum_cons,
        List.length_cons] at h2 ⊢
      rw [h2]
      simp only [Nat.add_sub_cancel]
      rw [Nat.mul_succ]
      omega

lemma splitParagraphs_head_shape (c : Char) (rest : PyStr) :
    ∃ q qs, splitParagraphs (c :: rest) = q :: qs ∧ (q = [] ∨ ∃ q2, q = c :: q2) := by
  by_cases hm : c = '\n' ∧ ∃ r1, rest = '\n' :: r1
  · obtain ⟨hc, r1, hr⟩ := hm
    subst hc
    subst hr
    exact ⟨[], splitParagraphs r1, splitParagraphs_double_eq r1, Or.inl rfl⟩
  · have h : ∀ r1, c = '\n' → rest = '\n' :: r1 → False := by
      intro r1 hc hr
      exact hm ⟨hc, r1, hr⟩
    cases hsr : splitParagraphs rest with
    | nil => exact absurd hsr (splitParagraphs_ne_nil rest)
    | cons p ps =>
      exact ⟨c :: p, ps, splitParagraphs_cons_eq2 c rest p ps h hsr, Or.inr ⟨p, rfl⟩⟩

lemma splitParagraphs_noDouble (s : PyStr) :
    ∀ p ∈ splitParagraphs s, hasDoubleNL p = false := by
  induction s using splitParagraphs.induct with
  | case1 =>
    intro p hp
    rw [splitParagraphs_nil, List.mem_singleton] at hp
    rw [hp]
    rfl
  | case2 rest ih =>
    intro p hp
    rw [splitParagraphs_double_eq] at hp
    rcases List.mem_cons.mp hp with h1 | h2
    · rw [h1]
      rfl
    · exact ih p h2
  | case3 c rest h heq ih => exact absurd heq (splitParagraphs_ne_nil rest)
  | case4 c rest h q qs heq ih =>
    intro p hp
    rw [splitParagraphs_cons_eq2 c rest q qs h heq] at hp
    have hqnd : hasDoubleNL q = false := ih q (by rw [heq]; exact List.mem_cons_self _ _)
    rcases List.mem_cons.mp hp with h1 | h2
    · rw [h1]
      have hside : ∀ r1, c = '\n' → q = '\n' :: r1 → False := by
        cases rest with
        | nil =>
          have h0 := heq
          rw [splitParagraphs_nil] at h0
          injection h0 with h0a h0b
          intro r1 hc hq
          rw [← h0a] at hq
          exact List.noConfusion hq
        | cons d rest2 =>
          obtain ⟨q2, qs2, hshape, hq2⟩ := splitParagraphs_head_shape d rest2
          rw [heq] at hshape
          injection hshape with hsa hsb
          intro r1 hc hq
          rcases hq2 with hq0 | ⟨q3, hq3⟩
          · rw [hsa, hq0] at hq
            exact List.noConfusion hq
          · rw [hsa, hq3] at hq
            injection hq with hqa hqb
            exact h rest2 hc (by rw [hqa])
      rw [hasDoubleNL_cons_eq c q hside]
      exact hqnd
    · exact ih p (by rw [heq]; exact List.mem_cons_of_mem q h2)

lemma splitParagraphs_of_noDouble (p : PyStr) (h : hasDoubleNL p = false) :
    splitParagraphs p = [p] := by
  induction p using splitParagraphs.induct with
  | case1 => exact splitParagraphs_nil
  | case2 rest ih =>
    rw [hasDoubleNL_double] at h
    exact Bool.noConfusion h
  | case3 c rest hside heq ih => exact absurd heq (splitParagraphs_ne_nil rest)
  | case4 c rest hside q qs heq ih =>
    rw [hasDoubleNL_cons_eq c rest hside] at h
    exact splitParagraphs_cons_eq2 c rest rest [] hside (ih h)

lemma splitParagraphs_length_cons_ge (s : PyStr) :
    ∀ c : Char, (splitParagraphs s).length ≤ (splitParagraphs (c :: s)).length := by
  induction s using splitParagraphs.induct with
  | case1 =>
    intro c
    rw [splitParagraphs_nil, splitParagraphs_cons_eq2 c [] [] []
      (fun r1 _ hbad => List.noConfusion hbad) splitParagraphs_nil]
    simp
  | case2 rest ih =>
    intro c
    by_cases hc : c = '\n'
    · subst hc
      rw [splitParagraphs_double_eq ('\n' :: rest), splitParagraphs_double_eq rest]
      simp only [List.length_cons]
      have := ih '\n'
      omega
    · have hside : ∀ r1, c = '\n' → ('\n' :: '\n' :: rest : PyStr) = '\n' :: r1 → False :=
        fun r1 hcc _ => hc hcc
      rw [splitParagraphs_cons_eq2 c _ [] (splitParagraphs rest) hside
        (splitParagraphs_double_eq rest), splitParagraphs_double_eq rest]
      simp only [List.length_cons]
      omega
  | case3 c2 rest h heq ih => exact absurd heq (splitParagraphs_ne_nil rest)
  | case4 c2 rest h q qs heq ih =>
    intro c
    by_cases hcc : c = '\n' ∧ c2 = '\n'
    · obtain ⟨hc, hc2⟩ := hcc
      subst hc
      subst hc2
      rw [splitParagraphs_cons_eq2 '\n' rest q qs h heq, splitParagraphs_double_eq rest, heq]
      simp only [List.length_cons]
      omega
    · have hside : ∀ r1, c = '\n' → (c2 :: rest : PyStr) = '\n' :: r1 → False := by
        intro r1 hc hr
        injection hr with hr1 hr2
        exact hcc ⟨hc, hr1⟩
      rw [splitParagraphs_cons_eq2 c2 rest q qs h heq,
        splitParagraphs_cons_eq2 c (c2 :: rest) (c2 :: q) qs hside
          (splitParagraphs_cons_eq2 c2 rest q qs h heq)]
      simp only [List.length_cons]
      omega

lemma splitParagraphs_append_sep (p : PyStr) (s : PyStr) :
    (splitParagraphs s).length + 1 ≤ (splitParagraphs (p ++ '\n' :: '\n' :: s)).length := by
  induction p with
  | nil =>
    rw [List.nil_append, splitParagraphs_double_eq]
    simp only [List.length_cons]
    omega
  | cons c p ih =>
    rw [List.cons_append]
    exact le_trans ih (splitParagraphs_length_cons_ge _ c)

lemma length_le_splitParagraphs_joinWith (ps : List PyStr) (h : ps ≠ []) :
    ps.length ≤ (splitParagraphs (joinWith ['\n', '\n'] ps)).length := by
  induction ps with
  | nil => exact absurd rfl h
  | cons p qs ih =>
    cases qs with
    | nil =>
      show 1 ≤ (splitParagraphs p).length
      have hne := splitParagraphs_ne_nil p
      exact List.length_pos.mpr hne
    | cons q rest =>
      have hj : joinWith ['\n', '\n'] (p :: q :: rest) =
          p ++ '\n' :: '\n' :: joinWith ['\n', '\n'] (q :: rest) := by
        show p ++ ['\n', '\n'] ++ joinWith ['\n', '\n'] (q :: rest) = _
        rw [List.append_assoc]
        rfl
      rw [hj]
      have h2 := splitParagraphs_append_sep p (joinWith ['\n', '\n'] (q :: rest))
      have h3 := ih (List.cons_ne_nil q rest)
      simp only [List.length_cons] at h3 ⊢
      omega

lemma chunkStep_inv {m : ℕ} {st : ChunkAcc} (p : PyStr) (hp : hasDoubleNL p = false)
    (h : ChunkInv m st) : ChunkInv m (chunkStep m st p) := by
  obtain ⟨hchunks, hnd, hcur, hsize⟩ := h
  unfold chunkStep
  split
  case isTrue hcond =>
    refine ⟨?_, ?_, by simp, by simp⟩
    · intro ch hch
      rcases List.mem_append.mp hch with hin | hnew
      · exact hchunks ch hin
      · rw [List.mem_singleton.mp hnew]
        exact ⟨st.current, hcond.2, hnd, rfl, hcur⟩
    · intro q hq
      rw [List.mem_singleton.mp hq]
      exact hp
  case isFalse hcond =>
    rw [Classical.not_and_iff_or_not_not] at hcond
    refine ⟨hchunks, ?_, ?_, by simp [hsize]⟩
    · intro q hq
      rcases List.mem_append.mp hq with hin | hnew
      · exact hnd q hin
      · rw [List.mem_singleton.mp hnew]
        exact hp
    · intro hlen
      rcases hcond with hle | hnil
      · push_neg at hle
        simp only [List.map_append, List.sum_append, List.map_cons, List.sum_cons,
          List.map_nil, List.sum_nil]
        omega
      · rw [Classical.not_not] at hnil
        rw [hnil] at hlen
        simp at hlen

lemma foldl_chunkStep_inv {m : ℕ} (ps : List PyStr) :
    ∀ st : ChunkAcc, (∀ p ∈ ps, hasDoubleNL p = false) → ChunkInv m st →
      ChunkInv m (ps.foldl (chunkStep m) st) := by
  induction ps with
  | nil => exact fun st _ h => h
  | cons p rest ih =>
    intro st hps h
    exact ih _ (fun q hq => hps q (List.mem_cons_of_mem p hq))
      (chunkStep_inv p (hps p (List.mem_cons_self p rest)) h)

lemma split_chunk_group (m : ℕ) (content : PyStr) (ch : PyStr)
    (hch : ch ∈ split_section_into_chunks m content) :
    ∃ ps, ps ≠ [] ∧ (∀ p ∈ ps, hasDoubleNL p = false) ∧
      ch = joinWith ['\n', '\n'] ps ∧
      (1 < ps.length → (ps.map List.length).sum ≤ m) := by
  unfold split_section_into_chunks at hch
  split at hch
  case isTrue hle =>
    rw [List.mem_singleton.mp hch]
    refine ⟨splitParagraphs content, splitParagraphs_ne_nil content,
      splitParagraphs_noDouble content, (joinWith_splitParagraphs content).symm, ?_⟩
    intro _
    have hlen := length_joinWith ['\n', '\n'] (splitParagraphs content)
      (splitParagraphs_ne_nil content)
    rw [joinWith_splitParagraphs content] at hlen
    omega
  case isFalse hgt =>
    have hinv : ChunkInv m ((splitParagraphs content).foldl (chunkStep m) ⟨[], [], 0⟩) :=
      foldl_chunkStep_inv _ _ (splitParagraphs_noDouble content)
        ⟨by simp, by simp, by simp, by simp⟩
    obtain ⟨hchunks, hnd, hcur, _⟩ := hinv
    dsimp only at hch
    split at hch
    case isTrue hne =>
      rcases List.mem_append.mp hch with hin | hnew
      · exact hchunks ch hin
      · rw [List.mem_singleton.mp hnew]
        exact ⟨_, hne, hnd, rfl, hcur⟩
    case isFalse hnil => exact hchunks ch hch

lemma splitParagraphs_replicate_append (c : Char) (hc : c ≠ '\n') (n : ℕ) (l : PyStr) :
    splitParagraphs (List.replicate n c ++ '\n' :: '\n' :: l) =
      List.replicate n c :: splitParagraphs l := by
  induction n with
  | zero => simp [splitParagraphs]
  | succ k ih =>
    rw [List.replicate_succ, List.cons_append,
      splitParagraphs_cons_eq c _ (fun _ hceq _ => absurd hceq hc), ih]

lemma splitParagraphs_replicate (c : Char) (hc : c ≠ '\n') (n : ℕ) :
    splitParagraphs (List.replicate n c) = [List.replicate n c] := by
  induction n with
  | zero => simp [splitParagraphs]
  | succ k ih =>
    rw [List.replicate_succ,
      splitParagraphs_cons_eq c _ (fun _ hceq _ => absurd hceq hc), ih]

lemma splitParagraphs_sample :
    splitParagraphs sampleOverflowContent = [paraA, paraB, paraC] := by
  unfold sampleOverflowContent paraA paraB paraC
  rw [splitParagraphs_replicate_append 'a' (by decide),
    splitParagraphs_replicate_append 'b' (by decide),
    splitParagraphs_replicate 'c' (by decide)]

lemma sample_content_length : sampleOverflowContent.length = 1505 := by
  simp only [sampleOverflowContent, List.length_append, List.length_cons, paraA, paraB, paraC,
    List.length_replicate]

lemma paraA_length : paraA.length = 750 := by rw [paraA, List.length_replicate]

lemma paraB_length : paraB.length = 750 := by rw [paraB, List.length_replicate]

lemma paraC_length : paraC.length = 1 := by rw [paraC, List.length_replicate]

lemma split_sample :
    split_section_into_chunks 1500 sampleOverflowContent =
      [paraA ++ '\n' :: '\n' :: paraB, paraC] := by
  have s1 : chunkStep 1500 ⟨[], [], 0⟩ paraA = ⟨[], [paraA], paraA.length⟩ := by
    rw [chunkStep, if_neg]
    · simp only [List.nil_append, Nat.zero_add]
    · exact fun h => h.2 rfl
  have s2 : chunkStep 1500 ⟨[], [paraA], paraA.length⟩ paraB =
      ⟨[], [paraA, paraB], paraA.length + paraB.length⟩ := by
    rw [chunkStep, if_neg]
    · simp only [List.cons_append, List.nil_append]
    · intro hcon
      have hc1 := hcon.1
      dsimp only at hc1
      rw [paraA_length, paraB_length] at hc1
      omega
  have s3cond : (⟨[], [paraA, paraB], paraA.length + paraB.length⟩ : ChunkAcc).size +
      paraC.length > 1500 ∧
      (⟨[], [paraA, paraB], paraA.length + paraB.length⟩ : ChunkAcc).current ≠ [] := by
    constructor
    · dsimp only
      rw [paraA_length, paraB_length, paraC_length]
      omega
    · exact List.cons_ne_nil _ _
  have s3 : chunkStep 1500 ⟨[], [paraA, paraB], paraA.length + paraB.length⟩ paraC =
      ⟨[joinWith ['\n', '\n'] [paraA, paraB]], [paraC], paraC.length⟩ := by
    rw [chunkStep, if_pos s3cond]
    simp only [List.nil_append]
  have hfold : List.foldl (chunkStep 1500) ⟨[], [], 0⟩ [paraA, paraB, paraC] =
      ⟨[joinWith ['\n', '\n'] [paraA, paraB]], [paraC], paraC.length⟩ := by
    rw [List.foldl_cons, s1, List.foldl_cons, s2, List.foldl_cons, s3, List.foldl_nil]
  unfold split_section_into_chunks
  rw [if_neg (by rw [sample_content_length]; omega)]
  dsimp only
  rw [splitParagraphs_sample, hfold]
  rw [if_pos (show ([paraC] : List PyStr) ≠ [] from List.cons_ne_nil _ _)]
  simp only [joinWith, List.singleton_append, List.cons_append, List.nil_append,
    List.append_assoc]

lemma splitParagraphs_bigChunk :
    splitParagraphs (paraA ++ '\n' :: '\n' :: paraB) = [paraA, paraB] := by
  rw [paraA, paraB, splitParagraphs_replicate_append 'a' (by decide),
    splitParagraphs_replicate 'b' (by decide)]

lemma bigChunk_length : (paraA ++ '\n' :: '\n' :: paraB).length = 1502 := by
  simp only [List.length_append, List.length_cons, paraA_length, paraB_length]

lemma mem_insertDescBy {α : Type} (lt : α → α → Bool) (a x : α) (l : List α) :
    x ∈ insertDescBy lt a l ↔ x = a ∨ x ∈ l := by
  induction l with
  | nil => simp [insertDescBy]
  | cons b rest ih =>
    rw [insertDescBy]
    split
    · simp only [List.mem_cons, ih]
      tauto
    · simp only [List.mem_cons]

lemma mem_sortDescBy {α : Type} (lt : α → α → Bool) (x : α) (l : List α) :
    x ∈ sortDescBy lt l ↔ x ∈ l := by
  induction l with
  | nil => simp [sortDescBy]
  | cons a rest ih =>
    rw [sortDescBy, mem_insertDescBy]
    simp only [List.mem_cons, ih]

lemma filter_insertDescBy {α : Type} (p : α → Bool) (lt : α → α → Bool) (a : α)
    (l : List α) (h : p a = true → ∀ b, lt a b = true → p b = false) :
    (insertDescBy lt a l).filter p = (a :: l).filter p := by
  induction l with
  | nil => rfl
  | cons b rest ih =>
    rw [insertDescBy]
    split
    case isTrue hlt =>
      by_cases hpa : p a = true
      · have hpb := h hpa b hlt
        simp only [List.filter_cons, hpb, ih]
        simp [List.filter_cons, hpa, hpb]
      · have hpa2 : p a = false := by
          cases hv : p a
          · rfl
          · exact absurd hv hpa
        simp only [List.filter_cons, ih]
        simp [List.filter_cons, hpa2]
    case isFalse hlt => rfl

lemma filter_sortDescBy {α : Type} (p : α → Bool) (lt : α → α → Bool)
    (h : ∀ a, p a = true → ∀ b, lt a b = true → p b = false) (l : List α) :
    (sortDescBy lt l).filter p = l.filter p := by
  induction l with
  | nil => rfl
  | cons a rest ih =>
    rw [sortDescBy, filter_insertDescBy p lt a _ (h a)]
    simp only [List.filter_cons, ih]

lemma sumSq_aux_nonneg (v : List ℚ) : ∀ acc : ℚ, 0 ≤ acc →
    0 ≤ v.foldl (fun acc a => acc + a * a) acc := by
  induction v with
  | nil => exact fun acc h => h
  | cons a rest ih =>
    intro acc h
    exact ih _ (add_nonneg h (mul_self_nonneg a))

lemma sumSq_nonneg (v : List ℚ) : 0 ≤ sumSq v := sumSq_aux_nonneg v 0 le_rfl

lemma rm_cosine_zero_of (v1 v2 : List ℚ)
    (h : v1 = [] ∨ v2 = [] ∨ sumSq v1 = 0 ∨ sumSq v2 = 0) :
    rm_cosine_similarity v1 v2 = .zero := by
  unfold rm_cosine_similarity
  by_cases hg : v1 = [] ∨ v2 = [] ∨ v1.length ≠ v2.length
  · rw [if_pos hg]
  · rw [if_neg hg]
    dsimp only
    rw [not_or, not_or] at hg
    rcases h with h | h | h | h
    · exact absurd h hg.1
    · exact absurd h hg.2.1
    · rw [if_pos (Or.inl h)]
    · rw [if_pos (Or.inr h)]

lemma es_similarity_zero_of (v1 v2 : List ℚ)
    (h : v1 = [] ∨ v2 = [] ∨ sumSq v1 = 0 ∨ sumSq v2 = 0) :
    es_similarity v1 v2 = .zero := by
  unfold es_similarity
  by_cases hg : v1 = [] ∨ v2 = []
  · rw [if_pos hg]
  · rw [if_neg hg]
    by_cases hl : v1.length ≠ v2.length
    · rw [if_pos hl]
    · rw [if_neg hl]
      dsimp only
      rw [not_or] at hg
      rcases h with h | h | h | h
      · exact absurd h hg.1
      · exact absurd h hg.2
      · rw [if_pos (Or.inl h)]
      · rw [if_pos (Or.inr h)]

lemma rm_cosine_ratio_inv (v1 v2 : List ℚ) (d a b : ℚ)
    (hr : rm_cosine_similarity v1 v2 = .ratio d a b) :
    d = dotList v1 v2 ∧ a = sumSq v1 ∧ b = sumSq v2 ∧ 0 < a ∧ 0 < b := by
  unfold rm_cosine_similarity at hr
  by_cases hg : v1 = [] ∨ v2 = [] ∨ v1.length ≠ v2.length
  · rw [if_pos hg] at hr
    exact absurd hr (by simp)
  · rw [if_neg hg] at hr
    dsimp only at hr
    by_cases hs : sumSq v1 = 0 ∨ sumSq v2 = 0
    · rw [if_pos hs] at hr
      exact absurd hr (by simp)
    · rw [if_neg hs] at hr
      rw [not_or] at hs
      injection hr with hd ha hb
      refine ⟨hd.symm, ha.symm, hb.symm, ?_, ?_⟩
      · rw [← ha]
        exact lt_of_le_of_ne (sumSq_nonneg v1) (Ne.symm hs.1)
      · rw [← hb]
        exact lt_of_le_of_ne (sumSq_nonneg v2) (Ne.symm hs.2)

lemma es_similarity_ratio_inv (v1 v2 : List ℚ) (d a b : ℚ)
    (hr : es_similarity v1 v2 = .ratio d a b) :
    d = dotList v1 v2 ∧ a = sumSq v1 ∧ b = sumSq v2 ∧ 0 < a ∧ 0 < b := by
  unfold es_similarity at hr
  by_cases hg : v1 = [] ∨ v2 = []
  · rw [if_pos hg] at hr
    exact absurd hr (by simp)
  · rw [if_neg hg] at hr
    by_cases hl : v1.length ≠ v2.length
    · rw [if_pos hl] at hr
      exact absurd hr (by simp)
    · rw [if_neg hl] at hr
      dsimp only at hr
      by_cases hs : sumSq v1 = 0 ∨ sumSq v2 = 0
      · rw [if_pos hs] at hr
        exact absurd hr (by simp)
      · rw [if_neg hs] at hr
        rw [not_or] at hs
        injection hr with hd ha hb
        refine ⟨hd.symm, ha.symm, hb.symm, ?_, ?_⟩
        · rw [← ha]
          exact lt_of_le_of_ne (sumSq_nonneg v1) (Ne.symm hs.1)
        · rw [← hb]
          exact lt_of_le_of_ne (sumSq_nonneg v2) (Ne.symm hs.2)

lemma simGeThreshold_zero_false (t : ℚ) (ht : 0 < t) :
    simGeThreshold ((0 : ℚ), (1 : ℚ)) t = false := by
  unfold simGeThreshold simKey
  rw [decide_eq_false_iff_not]
  intro hcon
  rw [if_pos ht.le] at hcon
  norm_num at hcon
  nlinarith

lemma foldl_set_length (pairs : List ((PyStr × ℕ) × List ℚ)) (es : List (Option (List ℚ))) :
    (pairs.foldl (fun acc piv => acc.set piv.1.2 piv.2) es).length = es.length := by
  induction pairs generalizing es with
  | nil => rfl
  | cons p rest ih => rw [List.foldl_cons, ih, List.length_set]

lemma processBatches_length (encode : List PyStr → Option (List (List ℚ)))
    (bs : List (List (PyStr × ℕ))) (es : List (Option (List ℚ))) :
    (processBatches encode bs es).length = es.length := by
  induction bs generalizing es with
  | nil => rfl
  | cons b rest ih =>
    rw [processBatches]
    cases encode (b.map Prod.fst) with
    | none => rfl
    | some vs => rw [ih, foldl_set_length]

lemma foldl_set_getElem_ne (pairs : List ((PyStr × ℕ) × List ℚ))
    (es : List (Option (List ℚ))) (i : ℕ) (h : ∀ piv ∈ pairs, piv.1.2 ≠ i) :
    (pairs.foldl (fun acc piv => acc.set piv.1.2 piv.2) es)[i]? = es[i]? := by
  induction pairs generalizing es with
  | nil => rfl
  | cons p rest ih =>
    rw [List.foldl_cons, ih _ (fun piv hm => h piv (List.mem_cons_of_mem p hm)),
      List.getElem?_set]
    rw [if_neg (h p (List.mem_cons_self p rest))]

lemma processBatches_getElem_ne (encode : List PyStr → Option (List (List ℚ)))
    (bs : List (List (PyStr × ℕ))) (es : List (Option (List ℚ))) (i : ℕ)
    (h : ∀ b ∈ bs, ∀ xj ∈ b, xj.2 ≠ i) :
    (processBatches encode bs es)[i]? = es[i]? := by
  induction bs generalizing es with
  | nil => rfl
  | cons b rest ih =>
    rw [processBatches]
    cases encode (b.map Prod.fst) with
    | none => rfl
    | some vs =>
      rw [ih _ (fun b2 hm => h b2 (List.mem_cons_of_mem b hm))]
      refine foldl_set_getElem_ne _ _ _ ?_
      intro piv hm
      exact h b (List.mem_cons_self b rest) piv.1 (List.of_mem_zip hm).1

lemma toBatchesFuel_mem {α : Type} (n : ℕ) (fuel : ℕ) (l : List α) (b : List α) (x : α)
    (hb : b ∈ toBatchesFuel n fuel l) (hx : x ∈ b) : x ∈ l := by
  induction fuel generalizing l with
  | zero =>
    cases l with
    | nil => exact absurd hb (List.not_mem_nil b)
    | cons a rest => exact absurd hb (List.not_mem_nil b)
  | succ fuel ih =>
    cases l with
    | nil => exact absurd hb (List.not_mem_nil b)
    | cons a rest =>
      rw [toBatchesFuel] at hb
      split_ifs at hb with hn
      · exact absurd hb (List.not_mem_nil b)
      · rcases List.mem_cons.mp hb with hb1 | hb2
        · rw [hb1] at hx
          exact (List.take_sublist _ _).mem hx
        · exact (List.drop_sublist _ _).mem (ih _ hb2)

lemma toBatches_mem {α : Type} (n : ℕ) (l : List α) (b : List α) (x : α)
    (hb : b ∈ toBatches n l) (hx : x ∈ b) : x ∈ l :=
  toBatchesFuel_mem n l.length l b x hb hx

lemma processBatches_noEncode (bs : List (List (PyStr × ℕ))) (es : List (Option (List ℚ))) :
    processBatches (fun _ => none) bs es = es := by
  cases bs <;> rfl

lemma uncached_spec (cache : PyStr → Option (List ℚ)) (texts : List PyStr)
    (xj : PyStr × ℕ) (hm : xj ∈ uncachedTexts cache texts) :
    ∃ t, texts[xj.2]? = some t ∧ isBlankText t = false ∧ cache t = none := by
  obtain ⟨it, hit, hf⟩ := List.mem_filterMap.mp hm
  obtain ⟨i, t⟩ := it
  obtain ⟨hlt, hget⟩ := List.mem_enum hit
  split_ifs at hf with hcond
  rw [Option.some.injEq] at hf
  rw [not_or] at hcond
  refine ⟨t, ?_, ?_, ?_⟩
  · rw [← hf]
    dsimp only
    rw [List.getElem?_eq_some_iff]
    exact ⟨hlt, hget.symm⟩
  · exact Bool.eq_false_iff.mpr hcond.1
  · cases hcv : cache t with
    | none => rfl
    | some v =>
      exfalso
      exact hcond.2 (by rw [hcv]; rfl)

lemma toBatches_zero {α : Type} (l : List α) : toBatches 0 l = [] := by
  cases l <;> rfl

lemma toBatchesFuel_flatten {α : Type} (n : ℕ) (hn : n ≠ 0) :
    ∀ (fuel : ℕ) (l : List α), l.length ≤ fuel → (toBatchesFuel n fuel l).flatten = l := by
  intro fuel
  induction fuel with
  | zero =>
    intro l hl
    cases l with
    | nil => rfl
    | cons a rest => simp at hl
  | succ fuel ih =>
    intro l hl
    cases l with
    | nil => rfl
    | cons a rest =>
      have hdrop : ((a :: rest).drop n).length ≤ fuel := by
        rw [List.length_drop]
        simp only [List.length_cons] at hl ⊢
        omega
      rw [toBatchesFuel, if_neg hn, List.flatten_cons, ih _ hdrop, List.take_append_drop]

lemma toBatches_flatten {α : Type} (n : ℕ) (hn : n ≠ 0) (l : List α) :
    (toBatches n l).flatten = l :=
  toBatchesFuel_flatten n hn l.length l (le_refl _)

lemma filterMap_ite_sublist {α β : Type} (l : List α) (p : α → Prop) [DecidablePred p]
    (g : α → β) :
    (l.filterMap fun a => if p a then none else some (g a)).Sublist (l.map g) := by
  induction l with
  | nil => simp
  | cons a l ih =>
    rw [List.filterMap_cons, List.map_cons]
    by_cases hp : p a
    · rw [if_pos hp]
      exact ih.cons (g a)
    · rw [if_neg hp]
      exact ih.cons₂ (g a)

lemma uncached_indices_sublist (cache : PyStr → Option (List ℚ)) (texts : List PyStr) :
    ((uncachedTexts cache texts).map Prod.snd).Sublist (List.range texts.length) := by
  unfold uncachedTexts
  rw [List.map_filterMap]
  have heq : (fun (it : ℕ × PyStr) =>
      (if isBlankText it.2 ∨ (cache it.2).isSome then none
        else some (pyStrip it.2, it.1)).map Prod.snd) =
      fun (it : ℕ × PyStr) =>
        if isBlankText it.2 ∨ (cache it.2).isSome then none else some it.1 := by
    funext it
    split <;> rfl
  rw [heq]
  have h2 := filterMap_ite_sublist texts.enum
    (fun it => isBlankText it.2 ∨ (cache it.2).isSome) (fun it => it.1)
  rw [List.enum_map_fst] at h2
  exact h2

lemma uncached_indices_pairwise (cache : PyStr → Option (List ℚ)) (texts : List PyStr) :
    ((uncachedTexts cache texts).map Prod.snd).Pairwise (· ≠ ·) := by
  have h1 : (List.range texts.length).Pairwise (· < ·) := List.pairwise_lt_range _
  exact (List.Pairwise.sublist (uncached_indices_sublist cache texts) h1).imp Nat.ne_of_lt

lemma zip_map_idx (b : List (PyStr × ℕ)) (vs : List (List ℚ)) (h : b.length ≤ vs.length) :
    ((b.zip vs).map fun piv => piv.1.2) = b.map Prod.snd := by
  have h1 : (b.zip vs).map Prod.fst = b := List.map_fst_zip b vs h
  calc ((b.zip vs).map fun piv => piv.1.2)
      = ((b.zip vs).map Prod.fst).map Prod.snd := by
        rw [List.map_map]
        rfl
    _ = b.map Prod.snd := by rw [h1]

lemma getElem?_zip_some {α β : Type} (l1 : List α) (l2 : List β) :
    ∀ (r : ℕ) (a : α) (b : β), l1[r]? = some a → l2[r]? = some b →
      (l1.zip l2)[r]? = some (a, b) := by
  induction l1 generalizing l2 with
  | nil =>
    intro r a b h1 h2
    rw [List.getElem?_nil] at h1
    exact Option.noConfusion h1
  | cons x l1 ih =>
    intro r a b h1 h2
    cases l2 with
    | nil =>
      rw [List.getElem?_nil] at h2
      exact Option.noConfusion h2
    | cons y l2 =>
      cases r with
      | zero =>
        rw [List.getElem?_cons_zero, Option.some.injEq] at h1 h2
        rw [List.zip_cons_cons, List.getElem?_cons_zero, h1, h2]
      | succ r2 =>
        rw [List.getElem?_cons_succ] at h1 h2
        rw [List.zip_cons_cons, List.getElem?_cons_succ]
        exact ih l2 r2 a b h1 h2

lemma foldl_set_getElem_at (pairs : List ((PyStr × ℕ) × List ℚ)) :
    ∀ (es : List (Option (List ℚ))) (y : PyStr × ℕ) (v : List ℚ) (r : ℕ),
      pairs[r]? = some (y, v) →
      (pairs.map fun piv => piv.1.2).Pairwise (· ≠ ·) →
      y.2 < es.length →
      (pairs.foldl (fun acc piv => acc.set piv.1.2 piv.2) es)[y.2]? = some (some v) := by
  induction pairs with
  | nil =>
    intro es y v r hr
    rw [List.getElem?_nil] at hr
    exact absurd hr (by simp)
  | cons piv rest ih =>
    intro es y v r hr hpw hlt
    rw [List.map_cons] at hpw
    rw [List.foldl_cons]
    cases r with
    | zero =>
      rw [List.getElem?_cons_zero, Option.some.injEq] at hr
      subst hr
      have hne : ∀ piv2 ∈ rest, piv2.1.2 ≠ (y, v).1.2 := by
        intro piv2 hm
        exact Ne.symm (List.rel_of_pairwise_cons hpw
          (List.mem_map_of_mem (fun piv => piv.1.2) hm))
      have h1 := foldl_set_getElem_ne rest (es.set (y, v).1.2 (y, v).2) (y, v).1.2 hne
      dsimp only at h1 ⊢
      rw [h1, List.getElem?_set]
      rw [if_pos rfl, if_pos hlt]
    | succ r2 =>
      rw [List.getElem?_cons_succ] at hr
      refine ih _ y v r2 hr (List.Pairwise.of_cons hpw) ?_
      rw [List.length_set]
      exact hlt

lemma processBatches_append_fail (encode : List PyStr → Option (List (List ℚ)))
    (pre : List (List (PyStr × ℕ))) :
    ∀ (rest : List (List (PyStr × ℕ))) (b : List (PyStr × ℕ))
      (es : List (Option (List ℚ))), encode (b.map Prod.fst) = none →
      processBatches encode (pre ++ b :: rest) es = processBatches encode pre es := by
  induction pre with
  | nil =>
    intro rest b es hfail
    simp only [List.nil_append, processBatches, hfail]
  | cons p pre ih =>
    intro rest b es hfail
    rw [List.cons_append, processBatches, processBatches]
    cases hp : encode (p.map Prod.fst) with
    | none => rfl
    | some vs => exact ih rest b _ hfail

lemma processBatches_fail_getElem (encode : List PyStr → Option (List (List ℚ)))
    (pre rest : List (List (PyStr × ℕ))) (b : List (PyStr × ℕ))
    (es : List (Option (List ℚ))) (i : ℕ)
    (hfail : encode (b.map Prod.fst) = none)
    (hne : ∀ b2 ∈ pre, ∀ yk ∈ b2, yk.2 ≠ i) :
    (processBatches encode (pre ++ b :: rest) es)[i]? = es[i]? := by
  rw [processBatches_append_fail encode pre rest b es hfail]
  exact processBatches_getElem_ne encode pre es i hne

lemma processBatches_success_at (encode : List PyStr → Option (List (List ℚ)))
    (pre : List (List (PyStr × ℕ))) :
    ∀ (rest : List (List (PyStr × ℕ))) (b : List (PyStr × ℕ)) (vs : List (List ℚ))
      (es : List (Option (List ℚ))) (xj : PyStr × ℕ) (v : List ℚ) (r : ℕ),
      encode (b.map Prod.fst) = some vs → vs.length = b.length →
      b[r]? = some xj → vs[r]? = some v →
      (((pre ++ b :: rest).flatten).map Prod.snd).Pairwise (· ≠ ·) →
      (∀ b2 ∈ pre, (encode (b2.map Prod.fst)).isSome) →
      xj.2 < es.length →
      (processBatches encode (pre ++ b :: rest) es)[xj.2]? = some (some v) := by
  induction pre with
  | nil =>
    intro rest b vs es xj v r henc hlen hr hv hpw hpre hlt
    rw [List.nil_append] at hpw ⊢
    simp only [processBatches, henc]
    rw [List.flatten_cons, List.map_append] at hpw
    have hparts := List.pairwise_append.mp hpw
    have hxj : xj ∈ b := List.getElem?_mem hr
    have hne_rest : ∀ b2 ∈ rest, ∀ yk ∈ b2, yk.2 ≠ xj.2 := by
      intro b2 hb2 yk hyk heq
      exact hparts.2.2 xj.2 (List.mem_map_of_mem Prod.snd hxj) yk.2
        (List.mem_map_of_mem Prod.snd (List.mem_flatten.mpr ⟨b2, hb2, hyk⟩)) heq.symm
    rw [processBatches_getElem_ne _ _ _ _ hne_rest]
    have hzip : (b.zip vs)[r]? = some (xj, v) := getElem?_zip_some b vs r xj v hr hv
    have hpairs_pw : ((b.zip vs).map fun piv => piv.1.2).Pairwise (· ≠ ·) := by
      rw [zip_map_idx b vs (le_of_eq hlen.symm)]
      exact hparts.1
    exact foldl_set_getElem_at (b.zip vs) es xj v r hzip hpairs_pw hlt
  | cons p pre ih =>
    intro rest b vs es xj v r henc hlen hr hv hpw hpre hlt
    rw [List.cons_append] at hpw ⊢
    cases hp : encode (p.map Prod.fst) with
    | none =>
      have hs := hpre p (List.mem_cons_self p pre)
      rw [hp] at hs
      simp at hs
    | some ws =>
      simp only [processBatches, hp]
      rw [List.flatten_cons, List.map_append] at hpw
      have hparts := List.pairwise_append.mp hpw
      refine ih rest b vs _ xj v r henc hlen hr hv hparts.2.1
        (fun b2 hb2 => hpre b2 (List.mem_cons_of_mem p hb2)) ?_
      rw [foldl_set_length]
      exact hlt

lemma batch_embed_eq (cache : PyStr → Option (List ℚ))
    (encode : List PyStr → Option (List (List ℚ))) (bsize : ℕ) (texts : List PyStr) :
    batch_embed cache encode bsize texts =
      (processBatches encode (toBatches bsize (uncachedTexts cache texts))
        (texts.map fun t => if isBlankText t then some [] else cache t)).map
        (fun o => o.getD []) := rfl

lemma vector_search_match_type (st : StoreState) (q : List ℚ) (fs : Option SearchFilters)
    (mr : ℕ) (t : ℚ) (r : SearchResult) (hr : r ∈ vector_search st q fs mr t) :
    r.match_type = "semantic".toList := by
  unfold vector_search at hr
  split_ifs at hr with h
  · exact absurd hr (List.not_mem_nil r)
  · dsimp only at hr
    obtain ⟨kcs, _, hrr⟩ := List.mem_map.mp hr
    rw [← hrr]

lemma keyword_search_match_type (st : StoreState) (query : PyStr)
    (fs : Option SearchFilters) (r : SearchResult) (hr : r ∈ keyword_search st query fs) :
    r.match_type = "keyword".toList := by
  unfold keyword_search at hr
  dsimp only at hr
  rw [mem_sortDescBy] at hr
  obtain ⟨k, hk, hf⟩ := List.mem_filterMap.mp hr
  rcases hd : st.data k with _ | chunk
  · rw [hd] at hf
    exact absurd hf (by simp)
  · rw [hd] at hf
    dsimp only at hf
    split_ifs at hf
    all_goals first
      | exact Option.noConfusion hf
      | (rw [Option.some.injEq] at hf; rw [← hf])

lemma search_vector_results_match_type (st : StoreState) (cache : PyStr → Option (List ℚ))
    (model : PyStr → Option (List ℚ)) (cfg : SearchConfig) (query : PyStr)
    (rb : Option PyStr) (ct : PyStr) (mr : ℕ) (r : SearchResult)
    (hr : r ∈ search_vector_results st cache model cfg query rb ct mr) :
    r.match_type = "semantic".toList := by
  unfold search_vector_results at hr
  split_ifs at hr with h
  · exact vector_search_match_type _ _ _ _ _ r hr
  · exact absurd hr (List.not_mem_nil r)

lemma search_keyword_results_match_type (st : StoreState) (cache : PyStr → Option (List ℚ))
    (model : PyStr → Option (List ℚ)) (cfg : SearchConfig) (query : PyStr)
    (rb : Option PyStr) (ct : PyStr) (mr : ℕ) (r : SearchResult)
    (hr : r ∈ search_keyword_results st cache model cfg query rb ct mr) :
    r.match_type = "keyword".toList := by
  unfold search_keyword_results at hr
  split_ifs at hr with h
  · exact keyword_search_match_type _ _ _ r ((List.take_sublist _ _).mem hr)
  · exact absurd hr (List.not_mem_nil r)

lemma titleStore_keyword_eval :
    search_keyword_results titleStore (fun _ => none) (fun _ => some [1])
        defaultSearchConfig [' '] none "any".toList 5 =
      [⟨titleChunk, (1, 1), "keyword".toList⟩] := by
  have hemb : generate_embedding (fun _ => none) (fun _ => some [1]) [' '] = [] := by decide
  have hinf1 : ([' '] <:+: ['a', ' ', 'b']) := by decide
  have hinf2 : ¬([' '] <:+: ['x']) := by decide
  have hkwsearch : keyword_search titleStore [' '] (search_filters_of none "any".toList) =
      [⟨titleChunk, (1, 1), "keyword".toList⟩] := by
    simp [keyword_search, get_filtered_chunks, search_filters_of, titleStore, titleChunk,
      chunkA, pyLower, List.filterMap_cons, List.filterMap_nil, sortDescBy, insertDescBy,
      hinf1, hinf2]
  unfold search_keyword_results
  rw [if_pos]
  · rw [hkwsearch]
    rfl
  · refine ⟨rfl, ?_⟩
    unfold search_vector_results
    rw [if_neg (by rw [hemb]; exact fun h => h rfl)]

lemma filter_mem_toFinset (l idx : List PyStr) :
    (l.filter fun k => decide (k ∈ idx)).toFinset = l.toFinset ∩ idx.toFinset := by
  ext x
  simp [List.mem_filter]

lemma dedup_toFinset (l : List PyStr) : l.dedup.toFinset = l.toFinset := by
  ext x
  simp [List.mem_dedup]

/-- Correctness of the `SimVal` encoding, stated against real arithmetic:
the rational key `simKey` orders `(d, p)` pairs exactly as the real numbers
`d / sqrt p` they stand for, so the Boolean comparisons used by the search
model are faithful to the float comparisons of the code. -/
lemma signSq_strictMono : StrictMono (fun x : ℝ => if 0 ≤ x then x ^ 2 else -(x ^ 2)) := by
  intro x y hxy
  dsimp only
  by_cases hx : 0 ≤ x
  · rw [if_pos hx, if_pos (le_trans hx hxy.le)]
    nlinarith
  · push_neg at hx
    by_cases hy : 0 ≤ y
    · rw [if_neg (not_le.mpr hx), if_pos hy]
      nlinarith
    · push_neg at hy
      rw [if_neg (not_le.mpr hx), if_neg (not_le.mpr hy)]
      nlinarith

lemma simKey_real (d p : ℚ) (hp : 0 < p) :
    ((simKey (d, p) : ℚ) : ℝ) =
      if 0 ≤ (d : ℝ) / Real.sqrt (p : ℝ) then ((d : ℝ) / Real.sqrt (p : ℝ)) ^ 2
      else -(((d : ℝ) / Real.sqrt (p : ℝ)) ^ 2) := by
  have hpr : (0 : ℝ) < (p : ℝ) := by exact_mod_cast hp
  have hsp : 0 < Real.sqrt (p : ℝ) := Real.sqrt_pos.mpr hpr
  have hsq : ((d : ℝ) / Real.sqrt (p : ℝ)) ^ 2 = (d : ℝ) ^ 2 / (p : ℝ) := by
    rw [div_pow, Real.sq_sqrt hpr.le]
  have hsign : (0 ≤ d) ↔ (0 ≤ (d : ℝ) / Real.sqrt (p : ℝ)) := by
    rw [le_div_iff₀ hsp, zero_mul]
    exact_mod_cast Iff.rfl
  unfold simKey
  dsimp only
  split_ifs with h1 h2 h2
  · rw [hsq]
    push_cast
    rfl
  · exact absurd (hsign.mp h1) h2
  · exact absurd (hsign.mpr h2) h1
  · rw [hsq]
    push_cast
    rfl

lemma simLtB_iff_real (x y : SimVal) (hx : 0 < x.2) (hy : 0 < y.2) :
    simLtB x y = true ↔ (x.1 : ℝ) / Real.sqrt (x.2 : ℝ) < (y.1 : ℝ) / Real.sqrt (y.2 : ℝ) := by
  unfold simLtB
  rw [decide_eq_true_eq, ← Rat.cast_lt (K := ℝ)]
  obtain ⟨d, p⟩ := x
  obtain ⟨e, q⟩ := y
  rw [simKey_real d p hx, simKey_real e q hy]
  exact signSq_strictMono.lt_iff_lt

lemma simGeThreshold_iff_real (s : SimVal) (t : ℚ) (hs : 0 < s.2) :
    simGeThreshold s t = true ↔ (t : ℝ) ≤ (s.1 : ℝ) / Real.sqrt (s.2 : ℝ) := by
  unfold simGeThreshold
  rw [decide_eq_true_eq, ← Rat.cast_le (K := ℝ)]
  obtain ⟨d, p⟩ := s
  rw [simKey_real t 1 one_pos, simKey_real d p hs]
  have h1 : Real.sqrt ((1 : ℚ) : ℝ) = 1 := by
    rw [Rat.cast_one, Real.sqrt_one]
  rw [h1, div_one]
  exact signSq_strictMono.le_iff_le

lemma rm_cosine_val_pos (v1 v2 : List ℚ) : 0 < ((rm_cosine_similarity v1 v2).val).2 := by
  cases hr : rm_cosine_similarity v1 v2 with
  | zero =>
    unfold SimResult.val
    norm_num
  | ratio d a b =>
    obtain ⟨_, _, _, ha, hb⟩ := rm_cosine_ratio_inv v1 v2 d a b hr
    unfold SimResult.val
    exact mul_pos ha hb

/-- Claim C1 (amended): every chunk the splitter emits that holds two or
more paragraphs (its content splits at `'\n\n'` into two or more pieces)
has the sum of its paragraphs' lengths at most `maxChunkSize`, hence its
content length is at most `maxChunkSize + 2 * (paragraph count - 1)` — the
loop's size accounting does not count the re-inserted two-character
separators, so the claimed bound `length ≤ maxChunkSize` can be exceeded
by multi-paragraph chunks (see the counterexample). -/

theorem chunk_paragraph_bound (m : ℕ) (content : PyStr) (ch : PyStr)
    (hch : ch ∈ split_section_into_chunks m content)
    (hmulti : 1 < (splitParagraphs ch).length) :
    ((splitParagraphs ch).map List.length).sum ≤ m ∧
      ch.length ≤ m + 2 * ((splitParagraphs ch).length - 1) := by
  obtain ⟨ps, hne, hnd, hjoin, hsum⟩ := split_chunk_group m content ch hch
  cases ps with
  | nil => exact absurd rfl hne
  | cons p rest =>
    cases rest with
    | nil =>
      exfalso
      have hp : hasDoubleNL p = false := hnd p (List.mem_cons_self _ _)
      have hch1 : ch = p := hjoin
      rw [hch1, splitParagraphs_of_noDouble p hp] at hmulti
      simp at hmulti
    | cons q rest2 =>
      have hsum2 := hsum (by simp)
      have hlj := length_joinWith ['\n', '\n'] (p :: q :: rest2) (List.cons_ne_nil _ _)
      rw [← hjoin] at hlj
      have hsplit := length_joinWith ['\n', '\n'] (splitParagraphs ch)
        (splitParagraphs_ne_nil ch)
      rw [joinWith_splitParagraphs ch] at hsplit
      have hk : (p :: q :: rest2).length ≤ (splitParagraphs ch).length := by
        rw [hjoin]
        exact length_le_splitParagraphs_joinWith _ (List.cons_ne_nil _ _)
      simp only [List.length_cons, List.length_nil] at hlj hsplit hk ⊢
      omega

/-- Witness for claim C1's amended theorem at a concrete input: the first
chunk produced from `sampleOverflowContent` holds the two 750-character
paragraphs, whose lengths sum to 1500 ≤ 1500; its content length 1502 is
within 1500 + 2 * (2 - 1). -/

theorem chunk_paragraph_bound_witness :
    ((splitParagraphs (paraA ++ '\n' :: '\n' :: paraB)).map List.length).sum ≤ 1500 ∧
      (paraA ++ '\n' :: '\n' :: paraB).length ≤
        1500 + 2 * ((splitParagraphs (paraA ++ '\n' :: '\n' :: paraB)).length - 1) :=
  chunk_paragraph_bound 1500 sampleOverflowContent (paraA ++ '\n' :: '\n' :: paraB)
    (by rw [split_sample]; exact List.mem_cons_self _ _)
    (by rw [splitParagraphs_bigChunk]; simp)

/-- Counterexample to claim C1 as stated: `sampleOverflowContent` is
split into two chunks, and its first chunk holds two paragraphs yet has
content length 1502 > 1500 (the two joined 750-character paragraphs pass
the `current_size + para_size > max_chunk_size` test because the check
ignores the `'\n\n'` separator that the join re-inserts). -/

theorem chunk_size_counterexample :
    2 ≤ (split_section_into_chunks 1500 sampleOverflowContent).length ∧
      ¬ ∀ ch ∈ split_section_into_chunks 1500 sampleOverflowContent,
          1 < (splitParagraphs ch).length → ch.length ≤ 1500 := by
  constructor
  · rw [split_sample]
    simp only [List.length_cons, List.length_nil]
    omega
  · intro hall
    have h1 := hall (paraA ++ '\n' :: '\n' :: paraB)
      (by rw [split_sample]; exact List.mem_cons_self _ _)
    have h2 := h1 (by
      rw [splitParagraphs_bigChunk]
      simp only [List.length_cons, List.length_nil]
      omega)
    rw [bigChunk_length] at h2
    omega

/-- Claim C2 (amended): vector search is a pure function of the store
state and query (repeated invocations return the same ordering), and
results with equal similarity scores keep the candidate list's relative
order — the stable sort has no tie-break on chunk id (see the
counterexample for the ascending-id part of the original claim). -/

theorem retrieval_tie_order (st : StoreState) (q : List ℚ) (fs : Option SearchFilters)
    (mr : ℕ) (t k : ℚ) :
    vector_search st q fs mr t = vector_search st q fs mr t ∧
      (sortDescBy (fun x y => simLtB x.2.2 y.2.2) (vector_scored st q fs t)).filter
          (fun x => decide (simKey x.2.2 = k)) =
        (vector_scored st q fs t).filter (fun x => decide (simKey x.2.2 = k)) := by
  refine ⟨rfl, filter_sortDescBy _ _ ?_ _⟩
  intro a ha b hb
  have hak : simKey a.2.2 = k := of_decide_eq_true ha
  have hlt : simKey a.2.2 < simKey b.2.2 := of_decide_eq_true hb
  exact decide_eq_false (by rw [← hak]; exact ne_of_gt hlt)

/-- Counterexample to claim C2 as stated: with scan order
`[chunk:b, chunk:a]` and equal similarity scores `(1, 1)` for both, the
results come back ordered `b` before `a` although `a < b`, so equal-score
results are not ordered by ascending chunk id. -/

theorem retrieval_tie_counterexample :
    ((vector_search tieStore [1] none 10 (7 / 10)).map fun r => r.content_chunk.id) =
        ["b".toList, "a".toList] ∧
      ((vector_search tieStore [1] none 10 (7 / 10)).map fun r => r.relevance_score) =
        [(1, 1), (1, 1)] ∧
      pyStrLt "a".toList "b".toList = true := by
  refine ⟨?_, ?_, by decide⟩ <;>
  · simp [vector_search, vector_scored, get_filtered_chunks, tieStore, chunkA, chunkB,
      rm_cosine_similarity, dotList, sumSq, SimResult.val, simGeThreshold, simKey,
      sortDescBy, insertDescBy, simLtB, List.filterMap_cons, List.filterMap_nil,
      List.zip, List.zipWith, List.foldl_cons, List.foldl_nil]
    norm_num
    try simp [sortDescBy, insertDescBy, simLtB, simKey]
    try norm_num
    try simp

/-- Claim C3 (amended): every produced section's end page is
`toc[i+1].page - 1` when the immediately following outline entry exists and
has level at most the current entry's, and the document's last page
otherwise — the code inspects only entry `i + 1`, not the first later entry
of level ≤ L (see the counterexample). -/

theorem outline_end_page (toc : List TocEntry) (pages : List PageData) (total : Int)
    (s : Section) (hs : s ∈ identify_sections_toc toc pages total) :
    ∃ i e, toc.get? i = some e ∧ s.title = e.title ∧ s.page_start = e.page ∧
      s.page_end = tocEndPage toc i e.level total := by
  unfold identify_sections_toc at hs
  obtain ⟨ie, hie, hf⟩ := List.mem_filterMap.mp hs
  obtain ⟨i, e⟩ := ie
  obtain ⟨hlt, hget⟩ := List.mem_enum hie
  dsimp only at hf
  split_ifs at hf with hc
  rw [Option.some.injEq] at hf
  refine ⟨i, e, ?_, ?_, ?_, ?_⟩
  · rw [List.get?_eq_getElem?, List.getElem?_eq_some_iff]
    exact ⟨hlt, hget.symm⟩
  · rw [← hf]
  · rw [← hf]
  · rw [← hf]

/-- Witness for claim C3's amended theorem: the first section produced
from `sampleToc` matches an outline entry with the computed end page. -/

theorem outline_end_page_witness :
    ∃ i e, sampleToc.get? i = some e ∧
      (⟨"A".toList, joinWith ['\n'] ["t".toList, "t".toList, "t".toList, "t".toList,
          "t".toList], 1, 5, 0, []⟩ : Section).title = e.title ∧
      (⟨"A".toList, joinWith ['\n'] ["t".toList, "t".toList, "t".toList, "t".toList,
          "t".toList], 1, 5, 0, []⟩ : Section).page_start = e.page ∧
      (⟨"A".toList, joinWith ['\n'] ["t".toList, "t".toList, "t".toList, "t".toList,
          "t".toList], 1, 5, 0, []⟩ : Section).page_end = tocEndPage sampleToc i e.level 5 :=
  outline_end_page sampleToc samplePages 5 _ (by decide)

/-- Counterexample to claim C3 as stated: in `sampleToc`, entry `A`
(level 0) is followed by `B` (level 1) and then `C` (level 0, page 3); the
spec's rule gives end page 2 for `A`, but the code keeps the document's
last page 5 because it checks only the immediate next entry. -/

theorem outline_end_page_counterexample :
    ((identify_sections_toc sampleToc samplePages 5).map fun s => (s.title, s.page_end)) =
        [("A".toList, (5 : Int)), ("B".toList, 2), ("C".toList, 5)] ∧
      spec_section_end_page sampleToc 0 5 = 2 ∧ (5 : Int) ≠ 2 := by decide

/-- Claim C4 (amended): `batch_embed` returns one vector per input text
in input order; a cached text keeps its vector whatever the model does.
Failure isolation is per model batch call, not per text: when the batch
call for one sub-batch fails, every uncached text of that sub-batch and of
all later sub-batches yields the empty vector, while any earlier
successful batch call has already placed each of its returned vectors at
its text's original index (see the counterexample for the per-text
reading). -/

theorem batch_embed_isolation (cache : PyStr → Option (List ℚ))
    (encode : List PyStr → Option (List (List ℚ))) (bsize : ℕ) (texts : List PyStr) :
    (batch_embed cache encode bsize texts).length = texts.length ∧
      (∀ (i : ℕ) (t : PyStr) (v : List ℚ), texts[i]? = some t → isBlankText t = false →
        cache t = some v → (batch_embed cache encode bsize texts)[i]? = some v) ∧
      (∀ pre b post, toBatches bsize (uncachedTexts cache texts) = pre ++ b :: post →
        encode (b.map Prod.fst) = none →
        ∀ bb ∈ b :: post, ∀ xj ∈ bb,
          (batch_embed cache encode bsize texts)[xj.2]? = some ([] : List ℚ)) ∧
      (∀ pre b post, toBatches bsize (uncachedTexts cache texts) = pre ++ b :: post →
        (∀ b2 ∈ pre, (encode (b2.map Prod.fst)).isSome) →
        ∀ vs, encode (b.map Prod.fst) = some vs → vs.length = b.length →
        ∀ (r : ℕ) (xj : PyStr × ℕ) (v : List ℚ), b[r]? = some xj → vs[r]? = some v →
          (batch_embed cache encode bsize texts)[xj.2]? = some v) := by
  refine ⟨?_, ?_, ?_, ?_⟩
  · unfold batch_embed
    rw [List.length_map, processBatches_length, List.length_map]
  · intro i t v hget hblank hcache
    unfold batch_embed
    dsimp only
    rw [List.getElem?_map]
    have hnotin : ∀ b ∈ toBatches bsize (texts.enum.filterMap fun it =>
        if isBlankText it.2 ∨ (cache it.2).isSome then none
        else some (pyStrip it.2, it.1)), ∀ xj ∈ b, xj.2 ≠ i := by
      intro b hb xj hxj heq
      obtain ⟨t2, hget2, _, hcache2⟩ :=
        uncached_spec cache texts xj (toBatches_mem _ _ _ _ hb hxj)
      rw [heq, hget, Option.some.injEq] at hget2
      rw [← hget2] at hcache2
      rw [hcache2] at hcache
      exact Option.noConfusion hcache
    rw [processBatches_getElem_ne _ _ _ _ hnotin, List.getElem?_map, hget]
    simp [hblank, hcache]
  · intro pre b post hdecomp hfail bb hbb xj hxj
    have hbz : bsize ≠ 0 := by
      intro h0
      rw [h0, toBatches_zero] at hdecomp
      exact absurd hdecomp.symm (by simp)
    rw [batch_embed_eq, List.getElem?_map, hdecomp]
    have hj : (pre ++ b :: post).flatten = uncachedTexts cache texts := by
      rw [← hdecomp]
      exact toBatches_flatten bsize hbz _
    have hxu : xj ∈ uncachedTexts cache texts := by
      rw [← hj]
      exact List.mem_flatten.mpr ⟨bb, List.mem_append.mpr (Or.inr hbb), hxj⟩
    obtain ⟨t, hget, hblank, hcache⟩ := uncached_spec cache texts xj hxu
    have hpw : (((pre ++ b :: post).flatten).map Prod.snd).Pairwise (· ≠ ·) := by
      rw [hj]
      exact uncached_indices_pairwise cache texts
    rw [List.flatten_append, List.map_append] at hpw
    have hparts := List.pairwise_append.mp hpw
    have hne : ∀ b2 ∈ pre, ∀ yk ∈ b2, yk.2 ≠ xj.2 := by
      intro b2 hb2 yk hyk
      exact hparts.2.2 yk.2 (List.mem_map_of_mem Prod.snd (List.mem_flatten.mpr ⟨b2, hb2, hyk⟩))
        xj.2 (List.mem_map_of_mem Prod.snd (List.mem_flatten.mpr ⟨bb, hbb, hxj⟩))
    rw [processBatches_fail_getElem encode pre post b _ _ hfail hne, List.getElem?_map, hget]
    simp [hblank, hcache]
  · intro pre b post hdecomp hpre vs henc hlen r xj v hr hv
    have hbz : bsize ≠ 0 := by
      intro h0
      rw [h0, toBatches_zero] at hdecomp
      exact absurd hdecomp.symm (by simp)
    rw [batch_embed_eq, List.getElem?_map, hdecomp]
    have hj : (pre ++ b :: post).flatten = uncachedTexts cache texts := by
      rw [← hdecomp]
      exact toBatches_flatten bsize hbz _
    have hxu : xj ∈ uncachedTexts cache texts := by
      rw [← hj]
      exact List.mem_flatten.mpr ⟨b, List.mem_append.mpr (Or.inr (List.mem_cons_self b post)),
        List.getElem?_mem hr⟩
    obtain ⟨t, hget, hblank, hcache⟩ := uncached_spec cache texts xj hxu
    have hpw : (((pre ++ b :: post).flatten).map Prod.snd).Pairwise (· ≠ ·) := by
      rw [hj]
      exact uncached_indices_pairwise cache texts
    have hlt : xj.2 < (texts.map fun t => if isBlankText t then some [] else cache t).length := by
      rw [List.length_map]
      exact (List.getElem?_eq_some_iff.mp hget).1
    rw [processBatches_success_at encode pre post b vs _ xj v r henc hlen hr hv hpw hpre hlt]
    rfl

/-- Witness for claim C4's amended theorem: with no cache, batch size 1
and a model that fails exactly on `bad`, the first batch `[good]` succeeds
and keeps its vector `[1]` at index 0, while the second batch `[bad]`
fails and index 1 receives `[]`. -/

theorem batch_embed_isolation_witness :
    (batch_embed (fun _ => none) encodeFailsOnBad 1 ["good".toList, "bad".toList]).length = 2 ∧
      (batch_embed (fun _ => none) encodeFailsOnBad 1 ["good".toList, "bad".toList])[0]? =
        some [1] ∧
      (batch_embed (fun _ => none) encodeFailsOnBad 1 ["good".toList, "bad".toList])[1]? =
        some [] := by
  refine ⟨?_, ?_, ?_⟩
  · rw [(batch_embed_isolation (fun _ => none) encodeFailsOnBad 1
      ["good".toList, "bad".toList]).1]
    rfl
  · exact (batch_embed_isolation (fun _ => none) encodeFailsOnBad 1
      ["good".toList, "bad".toList]).2.2.2 [] [("good".toList, 0)] [[("bad".toList, 1)]]
      (by decide) (by decide) [[1]] (by decide) (by decide) 0 ("good".toList, 0) [1]
      (by decide) (by decide)
  · exact (batch_embed_isolation (fun _ => none) encodeFailsOnBad 1
      ["good".toList, "bad".toList]).2.2.1 [[("good".toList, 0)]] [("bad".toList, 1)] []
      (by decide) (by decide) [("bad".toList, 1)] (by decide) ("bad".toList, 1) (by decide)

/-- Counterexample to claim C4 as stated: `good` would embed fine on its
own (`encodeFailsOnBad [good] = some [[1]]`), but because it shares the
single model batch with `bad`, the failing call leaves both texts with the
empty vector — the failure is not isolated to the failing text. -/

theorem batch_failure_counterexample :
    batch_embed (fun _ => none) encodeFailsOnBad 32 ["bad".toList, "good".toList] =
        [[], []] ∧
      encodeFailsOnBad ["good".toList] = some [[1]] := by decide

/-- Claim C5 (amended): keyword results are non-empty only when the
fallback is enabled and the semantic result list is empty (vector search
either ran and returned nothing, or was skipped because the query embedding
was empty — see the counterexample for the skipped case), and the combined
list never holds both semantic-tagged and keyword-tagged results. -/

theorem keyword_fallback_separation (st : StoreState) (cache : PyStr → Option (List ℚ))
    (model : PyStr → Option (List ℚ)) (cfg : SearchConfig) (query : PyStr)
    (rb : Option PyStr) (ct : PyStr) (mr : ℕ) :
    ((search_rulebook_core st cache model cfg query rb ct mr).keywordResults ≠ [] →
        cfg.enable_keyword_fallback = true ∧
          (search_rulebook_core st cache model cfg query rb ct mr).vectorResults = []) ∧
      ((search_rulebook_core st cache model cfg query rb ct mr).allResults.filter
          (fun r => decide (r.match_type = "semantic".toList)) = [] ∨
        (search_rulebook_core st cache model cfg query rb ct mr).allResults.filter
          (fun r => decide (r.match_type = "keyword".toList)) = []) := by
  have hcond : (search_rulebook_core st cache model cfg query rb ct mr).keywordResults ≠ [] →
      cfg.enable_keyword_fallback = true ∧
        (search_rulebook_core st cache model cfg query rb ct mr).vectorResults = [] := by
    intro hne
    show cfg.enable_keyword_fallback = true ∧
      search_vector_results st cache model cfg query rb ct mr = []
    have hne2 : search_keyword_results st cache model cfg query rb ct mr ≠ [] := hne
    unfold search_keyword_results at hne2
    by_cases hc : cfg.enable_keyword_fallback = true ∧
        search_vector_results st cache model cfg query rb ct mr = []
    · exact hc
    · rw [if_neg hc] at hne2
      exact absurd rfl hne2
  refine ⟨hcond, ?_⟩
  by_cases hkw : search_keyword_results st cache model cfg query rb ct mr = []
  · right
    rw [List.filter_eq_nil_iff]
    intro r hr
    have hra : r ∈ search_vector_results st cache model cfg query rb ct mr ++
        search_keyword_results st cache model cfg query rb ct mr := hr
    rw [hkw, List.append_nil] at hra
    have h := search_vector_results_match_type st cache model cfg query rb ct mr r hra
    rw [h]
    decide
  · left
    rw [List.filter_eq_nil_iff]
    intro r hr
    have hveq : search_vector_results st cache model cfg query rb ct mr = [] := (hcond hkw).2
    have hra : r ∈ search_vector_results st cache model cfg query rb ct mr ++
        search_keyword_results st cache model cfg query rb ct mr := hr
    rw [hveq, List.nil_append] at hra
    have h := search_keyword_results_match_type st cache model cfg query rb ct mr r hra
    rw [h]
    decide

/-- Witness for claim C5's amended theorem at the whitespace-query
instance: the fallback condition holds and the tag separation is
established. -/

theorem keyword_fallback_separation_witness :
    (defaultSearchConfig.enable_keyword_fallback = true ∧
        (search_rulebook_core titleStore (fun _ => none) (fun _ => some [1])
          defaultSearchConfig [' '] none "any".toList 5).vectorResults = []) ∧
      ((search_rulebook_core titleStore (fun _ => none) (fun _ => some [1])
            defaultSearchConfig [' '] none "any".toList 5).allResults.filter
          (fun r => decide (r.match_type = "semantic".toList)) = [] ∨
        (search_rulebook_core titleStore (fun _ => none) (fun _ => some [1])
            defaultSearchConfig [' '] none "any".toList 5).allResults.filter
          (fun r => decide (r.match_type = "keyword".toList)) = []) := by
  have hkne : (search_rulebook_core titleStore (fun _ => none) (fun _ => some [1])
      defaultSearchConfig [' '] none "any".toList 5).keywordResults ≠ [] := by
    show search_keyword_results titleStore (fun _ => none) (fun _ => some [1])
      defaultSearchConfig [' '] none "any".toList 5 ≠ []
    rw [titleStore_keyword_eval]
    exact fun h => List.noConfusion h
  exact ⟨(keyword_fallback_separation titleStore (fun _ => none) (fun _ => some [1])
      defaultSearchConfig [' '] none "any".toList 5).1 hkne,
    (keyword_fallback_separation titleStore (fun _ => none) (fun _ => some [1])
      defaultSearchConfig [' '] none "any".toList 5).2⟩

/-- Counterexample to claim C5 as stated: for the whitespace query
`" "`, `generate_embedding` returns `[]`, so `vector_search` is never
invoked (`vectorAttempted = false`), yet keyword search runs and returns a
result — keyword search can execute without vector search being
attempted. -/

theorem keyword_without_vector_counterexample :
    (search_rulebook_core titleStore (fun _ => none) (fun _ => some [1]) defaultSearchConfig
        [' '] none "any".toList 5).vectorAttempted = false ∧
      (search_rulebook_core titleStore (fun _ => none) (fun _ => some [1]) defaultSearchConfig
        [' '] none "any".toList 5).keywordResults ≠ [] := by
  constructor
  · decide
  · show search_keyword_results titleStore (fun _ => none) (fun _ => some [1])
      defaultSearchConfig [' '] none "any".toList 5 ≠ []
    rw [titleStore_keyword_eval]
    exact fun h => List.noConfusion h

/-- Claim C6 (confirmed): a filtered candidate whose stored vector is
non-empty is kept by the scoring loop exactly when its cosine similarity is
at or above the similarity threshold — `similarity >= similarity_threshold`
includes equality (the witness exercises a similarity of exactly 0.7
against the default 0.7 threshold). -/

theorem threshold_boundary_keep (st : StoreState) (q : List ℚ) (fs : Option SearchFilters)
    (t : ℚ) (key : PyStr) (ch : ContentChunk) (hkey : key ∈ get_filtered_chunks st fs)
    (hdata : st.data key = some ch) (hemb : ch.embedding ≠ []) :
    (key, ch, (rm_cosine_similarity q ch.embedding).val) ∈ vector_scored st q fs t ↔
      simGeThreshold (rm_cosine_similarity q ch.embedding).val t = true := by
  constructor
  · intro hmem
    obtain ⟨k2, hk2, hf⟩ := List.mem_filterMap.mp hmem
    rcases hd2 : st.data k2 with _ | c2
    · rw [hd2] at hf
      exact absurd hf (by simp)
    · rw [hd2] at hf
      dsimp only at hf
      by_cases he2 : c2.embedding = []
      · rw [if_pos he2] at hf
        exact absurd hf (by simp)
      · rw [if_neg he2] at hf
        by_cases hge : simGeThreshold (rm_cosine_similarity q c2.embedding).val t = true
        · have hk2eq : k2 = key := by
            rw [if_pos hge] at hf
            exact (Prod.mk.injEq _ _ _ _).mp (Option.some.injEq _ _ ▸ hf) |>.1
          rw [hk2eq, hdata] at hd2
          rw [Option.some.injEq] at hd2
          rw [hd2]
          exact hge
        · rw [if_neg (by simpa using hge)] at hf
          exact absurd hf (by simp)
  · intro hge
    refine List.mem_filterMap.mpr ⟨key, hkey, ?_⟩
    rw [hdata]
    dsimp only
    rw [if_neg hemb, if_pos hge]

/-- Witness for claim C6 at the exact threshold boundary: the stored
vector `[1, 1, 7, 7]` has cosine similarity exactly `7/10` with the query
`[0, 0, 0, 1]` and is kept at threshold `7/10`. -/

theorem threshold_boundary_keep_witness :
    "chunk:q".toList ∈ get_filtered_chunks boundaryStore none ∧
      boundaryStore.data "chunk:q".toList = some boundaryChunk ∧
      boundaryChunk.embedding ≠ [] ∧
      ("chunk:q".toList, boundaryChunk,
          (rm_cosine_similarity [0, 0, 0, 1] boundaryChunk.embedding).val) ∈
        vector_scored boundaryStore [0, 0, 0, 1] none (7 / 10) := by
  refine ⟨by decide, rfl, by decide, ?_⟩
  refine (threshold_boundary_keep boundaryStore [0, 0, 0, 1] none (7 / 10) "chunk:q".toList
    boundaryChunk (by decide) rfl (by decide)).mpr ?_
  simp [rm_cosine_similarity, dotList, sumSq, SimResult.val, simGeThreshold, simKey,
    boundaryChunk, chunkA, List.zip, List.zipWith, List.foldl_cons, List.foldl_nil]
  norm_num

/-- Claim C7 (confirmed): with filters, the candidate id set equals the
intersection of the supplied dimensions' index sets (given the store
invariant that index members are stored chunk keys, which
`store_rulebook_content` maintains), and an absent or empty filter map
yields all stored chunk ids. -/

theorem filter_intersection (st : StoreState) (f : SearchFilters)
    (h1 : ∀ v, f.rulebook = some v → ∀ k ∈ st.rulebookIdx v, k ∈ st.chunkKeys)
    (h2 : ∀ v, f.system = some v → ∀ k ∈ st.systemIdx v, k ∈ st.chunkKeys)
    (h3 : ∀ v, f.content_type = some v → ∀ k ∈ st.contentTypeIdx v, k ∈ st.chunkKeys) :
    (get_filtered_chunks st (some f)).toFinset =
        interAll st.chunkKeys.toFinset (suppliedIndexSets st f) ∧
      (get_filtered_chunks st none).toFinset = st.chunkKeys.toFinset := by
  refine ⟨?_, rfl⟩
  obtain ⟨rb, sys, ct⟩ := f
  rcases rb with _ | a <;> rcases sys with _ | b <;> rcases ct with _ | c
  all_goals
    simp only [get_filtered_chunks, suppliedIndexSets, interAll, List.reduceOption,
      Option.map_none', Option.map_some', List.filterMap_cons, List.filterMap_nil,
      List.foldl_cons, List.foldl_nil, filter_mem_toFinset, dedup_toFinset, id_eq]
  · exact Finset.inter_eq_right.mpr
      (fun x hx => List.mem_toFinset.mpr (h3 c rfl x (List.mem_toFinset.mp hx)))
  · exact Finset.inter_eq_right.mpr
      (fun x hx => List.mem_toFinset.mpr (h2 b rfl x (List.mem_toFinset.mp hx)))
  · rw [Finset.inter_eq_right.mpr
      (fun x hx => List.mem_toFinset.mpr (h2 b rfl x (List.mem_toFinset.mp hx)))]
  · exact Finset.inter_eq_right.mpr
      (fun x hx => List.mem_toFinset.mpr (h1 a rfl x (List.mem_toFinset.mp hx)))
  · rw [Finset.inter_eq_right.mpr
      (fun x hx => List.mem_toFinset.mpr (h1 a rfl x (List.mem_toFinset.mp hx)))]
  · rw [Finset.inter_eq_right.mpr
      (fun x hx => List.mem_toFinset.mpr (h1 a rfl x (List.mem_toFinset.mp hx)))]
  · rw [Finset.inter_eq_right.mpr
      (fun x hx => List.mem_toFinset.mpr (h1 a rfl x (List.mem_toFinset.mp hx)))]

/-- Witness for claim C7 on the spec's §8 example: chunks A (doc X, sys
S1), B (doc X, sys S2), C (doc Y, sys S1); filtering by document X and
system S1 returns exactly `{A}`. -/

theorem filter_intersection_witness :
    ((get_filtered_chunks filterStore
          (some ⟨some "X".toList, some "S1".toList, none⟩)).toFinset =
        interAll filterStore.chunkKeys.toFinset
          (suppliedIndexSets filterStore ⟨some "X".toList, some "S1".toList, none⟩) ∧
      (get_filtered_chunks filterStore none).toFinset = filterStore.chunkKeys.toFinset) ∧
      get_filtered_chunks filterStore (some ⟨some "X".toList, some "S1".toList, none⟩) =
        ["chunk:A".toList] :=
  ⟨filter_intersection filterStore ⟨some "X".toList, some "S1".toList, none⟩
      (fun v hv => by rw [Option.some.injEq] at hv; rw [← hv]; decide)
      (fun v hv => by rw [Option.some.injEq] at hv; rw [← hv]; decide)
      (fun v hv => Option.noConfusion hv),
    by decide⟩

/-- Claim C8 (confirmed): both cosine-similarity functions return 0 for
an empty or zero-magnitude vector (zero magnitude is exactly a zero sum of
squares over exact arithmetic), and the division branch always carries the
true dot product and the two sums of squares, both strictly positive — so
the divisor `sqrt s1 * sqrt s2` is never zero when the division runs. -/

theorem cosine_zero_guard (v1 v2 : List ℚ) :
    ((v1 = [] ∨ v2 = [] ∨ sumSq v1 = 0 ∨ sumSq v2 = 0) →
      rm_cosine_similarity v1 v2 = .zero ∧ es_similarity v1 v2 = .zero) ∧
      (∀ d a b, rm_cosine_similarity v1 v2 = .ratio d a b →
        d = dotList v1 v2 ∧ a = sumSq v1 ∧ b = sumSq v2 ∧ 0 < a ∧ 0 < b) ∧
      (∀ d a b, es_similarity v1 v2 = .ratio d a b →
        d = dotList v1 v2 ∧ a = sumSq v1 ∧ b = sumSq v2 ∧ 0 < a ∧ 0 < b) :=
  ⟨fun h => ⟨rm_cosine_zero_of v1 v2 h, es_similarity_zero_of v1 v2 h⟩,
    fun d a b hr => rm_cosine_ratio_inv v1 v2 d a b hr,
    fun d a b hr => es_similarity_ratio_inv v1 v2 d a b hr⟩

/-- Witness for claim C8: a zero vector yields `zero` in both functions,
and a concrete ratio case carries the exact dot product and positive sums
of squares. -/

theorem cosine_zero_guard_witness :
    (rm_cosine_similarity [0, 0] [1] = .zero ∧ es_similarity [0, 0] [1] = .zero) ∧
      ((4 : ℚ) = dotList [1, 2] [2, 1] ∧ (5 : ℚ) = sumSq [1, 2] ∧ (5 : ℚ) = sumSq [2, 1] ∧
        (0 : ℚ) < 4 + 1 ∧ (0 : ℚ) < 5) := by
  constructor
  · exact (cosine_zero_guard [0, 0] [1]).1
      (Or.inr (Or.inr (Or.inl (by norm_num [sumSq]))))
  · have h := (cosine_zero_guard [1, 2] [2, 1]).2.1 4 5 5 (by
      simp [rm_cosine_similarity, dotList, sumSq, List.zip, List.zipWith, List.foldl_cons,
        List.foldl_nil]
      norm_num)
    obtain ⟨h1, h2, h3, h4, h5⟩ := h
    exact ⟨h1, h2, h3, by norm_num, h5⟩

/-- Claim C9 (confirmed): the produced chunk ids are exactly the
deterministic formula `chunk_id_of` applied to the document name, each
section's title and the piece index — so re-chunking the same sections
with the same parameters reproduces the same ids. -/

theorem chunk_ids_deterministic (sections : List Section) (rb sys : PyStr) :
    (create_chunks sections rb sys).map ContentChunk.id =
      sections.flatMap fun sec =>
        (List.range (split_section_into_chunks 1500 sec.content).length).map
          (chunk_id_of rb sec.title) := by
  unfold create_chunks
  induction sections with
  | nil => rfl
  | cons sec rest ih =>
    simp only [List.flatMap_cons, List.map_append, ih]
    congr 1
    rw [List.map_map]
    have hcomp : (ContentChunk.id ∘ fun ic =>
        ({ id := replaceSpaces (rb ++ '_' :: sec.title ++ '_' :: natToStr ic.1)
           rulebook := rb
           system := sys
           content_type := determine_content_type sec.title
           title := sec.title
           content := ic.2
           page_number := sec.page_start
           section_path := sec.parent_sections ++ [sec.title]
           embedding := []
           meta_section_level := sec.level
           meta_page_range := intToStr sec.page_start ++ '-' :: intToStr sec.page_end
           meta_chunk_index := ic.1 } : ContentChunk)) =
        chunk_id_of rb sec.title ∘ Prod.fst := rfl
    rw [hcomp, ← List.map_map, List.enum_map_fst]

/-- Claim C10 (confirmed): a stored vector whose length differs from the
query's makes `_cosine_similarity` return 0 instead of raising, and under
any strictly positive similarity threshold no result of `vector_search` can
carry such a vector — every returned chunk's vector is non-empty and has
the query's dimension. -/

theorem mismatched_vector_excluded (q v : List ℚ) (st : StoreState)
    (fs : Option SearchFilters) (mr : ℕ) (t : ℚ) :
    (q.length ≠ v.length → rm_cosine_similarity q v = .zero) ∧
      (0 < t → ∀ r ∈ vector_search st q fs mr t,
        r.content_chunk.embedding ≠ [] ∧ r.content_chunk.embedding.length = q.length) := by
  constructor
  · intro hlen
    unfold rm_cosine_similarity
    rw [if_pos (Or.inr (Or.inr hlen))]
  · intro ht r hr
    unfold vector_search at hr
    split_ifs at hr with hkeys
    · exact absurd hr (by simp)
    · dsimp only at hr
      obtain ⟨kcs, hk, hrr⟩ := List.mem_map.mp hr
      have hk2 : kcs ∈ sortDescBy (fun x y => simLtB x.2.2 y.2.2)
          (vector_scored st q fs t) := (List.take_sublist _ _).mem hk
      rw [mem_sortDescBy] at hk2
      obtain ⟨k2, hk3, hf⟩ := List.mem_filterMap.mp hk2
      rcases hd2 : st.data k2 with _ | c2
      · rw [hd2] at hf
        exact absurd hf (by simp)
      · rw [hd2] at hf
        dsimp only at hf
        by_cases he2 : c2.embedding = []
        · rw [if_pos he2] at hf
          exact absurd hf (by simp)
        · rw [if_neg he2] at hf
          by_cases hge : simGeThreshold (rm_cosine_similarity q c2.embedding).val t = true
          · rw [if_pos hge] at hf
            have hchunk : r.content_chunk = c2 := by
              rw [← hrr]
              rw [Option.some.injEq] at hf
              rw [← hf]
            rw [hchunk]
            refine ⟨he2, ?_⟩
            by_contra hlen
            have hzero : rm_cosine_similarity q c2.embedding = .zero := by
              unfold rm_cosine_similarity
              rw [if_pos (Or.inr (Or.inr (fun he => hlen he.symm)))]
            rw [hzero] at hge
            unfold SimResult.val at hge
            rw [simGeThreshold_zero_false t ht] at hge
            exact Bool.false_ne_true hge
          · rw [if_neg (by simpa using hge)] at hf
            exact absurd hf (by simp)

/-- Witness for claim C10: the length-mismatched pair returns `zero`,
and the concrete search result's stored vector has the query's length 4. -/

theorem mismatched_vector_excluded_witness :
    rm_cosine_similarity [0, 0, 0, 1] [1, 2] = .zero ∧
      (⟨boundaryChunk, (7, 100), "semantic".toList⟩ : SearchResult).content_chunk.embedding ≠
        [] ∧
      (⟨boundaryChunk, (7, 100),
          "semantic".toList⟩ : SearchResult).content_chunk.embedding.length =
        ([0, 0, 0, 1] : List ℚ).length := by
  have hsearch : vector_search boundaryStore [0, 0, 0, 1] none 10 (7 / 10) =
      [⟨boundaryChunk, (7, 100), "semantic".toList⟩] := by
    simp [vector_search, vector_scored, get_filtered_chunks, boundaryStore, boundaryChunk,
      chunkA, rm_cosine_similarity, dotList, sumSq, SimResult.val, simGeThreshold, simKey,
      sortDescBy, insertDescBy, simLtB, List.filterMap_cons, List.filterMap_nil,
      List.zip, List.zipWith, List.foldl_cons, List.foldl_nil]
    norm_num
    simp [sortDescBy, insertDescBy]
  refine ⟨(mismatched_vector_excluded [0, 0, 0, 1] [1, 2] boundaryStore none 10 (7 / 10)).1
    (by decide), ?_⟩
  exact (mismatched_vector_excluded [0, 0, 0, 1] [1, 2] boundaryStore none 10 (7 / 10)).2
    (by norm_num) _ (by rw [hsearch]; exact List.mem_singleton_self _)
